import Mathlib

/-!
Verification of the Sofomore / COMO-CMA-ES coordination engine
(`comocma/como.py`): a shallow embedding of the scheduling, fitness
assignment, lifecycle and constraint-penalization logic, together with
theorems settling the specified properties.

Conventions of the embedding:
* objective vectors, incumbents and fitness values are rational numbers
  (`ℚ`), standing for the Python floats;
* the non-dominated-archive collaborator (`moarchiving` /
  `nondominatedarchive`, an external package) enters only through its
  interface: hypervolume and hypervolume-improvement are opaque function
  parameters, while front construction / membership are modelled from the
  specification of the collaborator ("the exact non-dominated subset of the
  given objective vectors relative to the reference point");
* a kernel (a CMA-ES instance) is opaque: we keep its incumbent, its
  `objective_values` field, its current termination status and, as an
  oracle, the termination status it will report after its next `tell`.
-/

namespace Como

/-- An objective vector (or a search-space point): a list of rationals. -/
abbrev Point := List ℚ

/-- Ascending stable sort of rationals, the model of Python's `sorted`. -/
def sortQ (l : List ℚ) : List ℚ := List.insertionSort (· ≤ ·) l

/-- Model of the external helper `cma.utilities.utils.ranks` (pycma, not part
of this repository), whose docstring reads "return ranks of entries starting
with zero based on Pythons `sorted`": the 0-based rank of entry `i` in the
stable ascending sort, i.e. the number of strictly smaller entries plus the
number of equal entries appearing earlier in the list. -/
def rankAt (v : List ℚ) (i : ℕ) : ℕ :=
  ((List.range v.length).filter (fun k => decide (v.getD k 0 < v.getD i 0))).length +
  ((List.range i).filter (fun k => decide (v.getD k 0 = v.getD i 0))).length

/-- Model of `cma.utilities.utils.ranks(g_values)`: the list of 0-based stable ranks. -/
def ranks (v : List ℚ) : List ℕ := (List.range v.length).map (rankAt v)

/-- The count `nb_feas = sum(g_is_feas)`: the number of entries of one constraint-value
list that are `≤ 0`. -/
def nbFeas (g : List ℚ) : ℕ := (g.filter (fun x => decide (x ≤ 0))).length

/-- The per-constraint penalty list built in `RankPenalizedFitness.__call__`:
`[g - nb_feas + 1 if g >= nb_feas else 0 for g in ranks(g_values)]`. -/
def gRanks (g : List ℚ) : List ℕ :=
  (ranks g).map (fun r => if nbFeas g ≤ r then r - nbFeas g + 1 else 0)

/-- The flag `is_feasible` for candidate `i`: every constraint value is `≤ 0`
(the product of the per-constraint indicator vectors in the source). -/
def isFeasible (gList : List (List ℚ)) (i : ℕ) : Bool :=
  gList.all (fun g => decide (g.getD i 0 ≤ 0))

/-- The index list `idx_feas = np.where(is_feasible)[0]`: the candidate indices that are
feasible under every constraint. -/
def feasIndices (n : ℕ) (gList : List (List ℚ)) : List ℕ :=
  (List.range n).filter (fun i => isFeasible gList i)

/-- The list `sorted_feas_f_values = sorted(np.asarray(f_values)[idx_feas])`. -/
def sortedFeasValues (fValues : List ℚ) (gList : List (List ℚ)) : List ℚ :=
  sortQ ((feasIndices fValues.length gList).map (fun i => fValues.getD i 0))

/-- The reader `RankPenalizedFitness._f_from_index(f_values, i)`: the `i`-th order
statistic of the sorted feasible values, reading
`f_values[min((imax, i))] + max((i - imax, 0))` with `imax = len - 1`, and
`self.f_current_best + i` when there is no feasible value (the natural
subtraction `i - (len - 1)` is exactly Python's `max((i - imax, 0))`). -/
def fFromIndex (fv : List ℚ) (fcb : ℚ) (i : ℕ) : ℚ :=
  if fv.length = 0 then fcb + (i : ℚ)
  else fv.getD (min (fv.length - 1) i) 0 + ((i - (fv.length - 1) : ℕ) : ℚ)

/-- The interpolation step of `RankPenalizedFitness.__call__` at a
(nonnegative) fractional index `j`:
`j1, j2 = int(j), int(np.ceil(j))` followed by
`(j - j1) * f2 + (j2 - j) * f1 if j2 > j1 else f1`. -/
def interpAt (fv : List ℚ) (fcb : ℚ) (j : ℚ) : ℚ :=
  if (⌊j⌋).toNat < (⌈j⌉).toNat then
    (j - ((⌊j⌋).toNat : ℚ)) * fFromIndex fv fcb ((⌈j⌉).toNat) +
      (((⌈j⌉).toNat : ℚ) - j) * fFromIndex fv fcb ((⌊j⌋).toNat)
  else fFromIndex fv fcb ((⌊j⌋).toNat)

/-- The interpolation step of `RankPenalizedFitness.__call__` for an
arbitrary order-statistic reader `G` (the shape shared by `interpAt` and
the claim-side synthesized values): weighted average of `G` at the floor
and ceiling of `j`. -/
def interpGen (G : ℕ → ℚ) (j : ℚ) : ℚ :=
  if (⌊j⌋).toNat < (⌈j⌉).toNat then
    (j - ((⌊j⌋).toNat : ℚ)) * G ((⌈j⌉).toNat) + (((⌈j⌉).toNat : ℚ) - j) * G ((⌊j⌋).toNat)
  else G ((⌊j⌋).toNat)

/-- The total `sum(g_ranks[i] for g_ranks in g_ranks_list)`. -/
def penaltySum (gList : List (List ℚ)) (i : ℕ) : ℕ :=
  (gList.map (fun g => (gRanks g).getD i 0)).sum

/-- The fractional index `j` used for candidate `i`:
`j = max((base_prctile * (len(idx_feas) - 1) + g_scale * (sum - 1), 0))` with
`base_prctile = 0.2` and `g_scale = 1.01`. -/
def rpfIndex (n : ℕ) (gList : List (List ℚ)) (i : ℕ) : ℚ :=
  max ((1/5) * (((feasIndices n gList).length : ℚ) - 1) +
       (101/100) * ((penaltySum gList i : ℚ) - 1)) 0

/-- The call `RankPenalizedFitness(f_values, g_list_values)()`: the rank-penalized
fitness of a batch.  `fcb` is the instance's `f_current_best` state on entry
(initialized to `0` by `__init__`); the second component of the result is its
value after the call (`sorted_feas_f_values[0]` when a feasible value
exists).  Feasible candidates keep their f-value; each globally infeasible
candidate receives the interpolated order statistic at its penalty index.
The source iterates over `set(range(len(f_values))).difference(idx_feas)`
mutating `f_values` in place; since each new value depends only on data fixed
before the loop, this is the same as the index map below. -/
def RankPenalizedFitness (fValues : List ℚ) (gList : List (List ℚ)) (fcb : ℚ) :
    List ℚ × ℚ :=
  let sf := sortedFeasValues fValues gList
  let fcb2 := sf.headD fcb
  (((List.range fValues.length).map (fun i =>
      if isFeasible gList i then fValues.getD i 0
      else interpAt sf fcb2 (rpfIndex fValues.length gList i))),
   fcb2)

/-! ## The ask scheduler (`Sofomore._indices_to_ask`) -/

/-- The sort `sorted(indices, key = self.key_sort_indices)`: stable sort of kernel
indices by an ordering-key function (rational-valued, covering the shipped
strategies `sort_random`, `sort_increasing`, `sort_decreasing`,
`sort_even_odds`, `sort_odds_even`). -/
def sortIndices (key : ℕ → ℚ) (l : List ℕ) : List ℕ :=
  List.insertionSort (fun a b => key a ≤ key b) l

/-- The scheduler step `Sofomore._indices_to_ask(number_to_ask)` as a pure function of the
scheduler state: given the active-index list and the remaining pool, returns
the chosen indices and the new remaining pool. -/
def indicesToAsk (key : ℕ → ℚ) (active pool : List ℕ) (numberToAsk : ℕ) :
    List ℕ × List ℕ :=
  let sorted := sortIndices key pool
  if numberToAsk ≤ sorted.length then
    (sorted.take numberToAsk, sorted.drop numberToAsk)
  else
    let val := numberToAsk - sorted.length
    let sorted2 := sortIndices key active
    (sorted ++ sorted2.take val, sorted2.drop val)

/-- Iterated scheduler rounds: the concatenation of the indices chosen by a
sequence of `_indices_to_ask` calls (one per entry of `requests`), threading
the remaining pool from call to call as `ask` does. -/
def runAsks (key : ℕ → ℚ) (active : List ℕ) : List ℕ → List ℕ → List ℕ
  | [], _ => []
  | n :: rest, pool =>
    (indicesToAsk key active pool n).1 ++
      runAsks key active rest (indicesToAsk key active pool n).2

/-! ## Kernels and the Sofomore coordinator state -/

/-- A single-objective solver instance, viewed through the interface the
coordinator consumes.  `stop_status` models the (possibly empty) dictionary
returned by `kernel.stop()`; a kernel is opaque, so the status it will report
after being told this round is an oracle field `stop_after_tell`, and the
keys of the dictionary are abstract strings (`"timeout"` being the one the
coordinator inspects). -/
structure Kernel where
  incumbent : Point
  objective_values : Option Point
  stop_status : List String
  stop_after_tell : List String
  deriving DecidableEq

instance : Inhabited Kernel := ⟨⟨[], none, [], []⟩⟩

/-- The effect of `kernel.tell(offspring, fitness)` on the visible kernel
state: the termination status becomes whatever the kernel's own dynamics
dictate (the oracle field). -/
def tellKernel (k : Kernel) : Kernel := { k with stop_status := k.stop_after_tell }

/-- The mutable coordinator state of `Sofomore`.  `offspring` records, as in
the source, which kernel index sampled this round and how many candidate
solutions it produced (the candidates themselves never influence `tell`).
`num_kernels` is an integer counter maintained separately from
`len(self.kernels)`, exactly as in the source. -/
structure Sofomore where
  kernels : List Kernel
  num_kernels : ℤ
  active_indices : List ℕ
  told_indices : List ℕ
  offspring : List (ℕ × ℕ)
  reference_point : Option Point
  countiter : ℕ
  countevals : ℕ
  best_hypervolume : ℚ
  epsilon_hypervolume : ℚ
  deriving DecidableEq

/-! ### The front collaborator, at its interface -/

/-- Modelled from the spec: the external archive collaborator keeps "the
exact non-dominated subset" of the objective vectors handed to it.  `u`
dominates `v` when it is coordinatewise `≤` and differs somewhere. -/
def weaklyDominates (u v : Point) : Bool :=
  decide (u.length = v.length) && (List.zip u v).all (fun p => decide (p.1 ≤ p.2)) &&
    decide (u ≠ v)

/-- Modelled from the spec: a vector takes part in hypervolume bookkeeping
when it is strictly below the reference point in every coordinate (with no
reference point, every vector takes part). -/
def inDomain (ref : Option Point) (v : Point) : Bool :=
  match ref with
  | none => true
  | some r => decide (v.length = r.length) && (List.zip v r).all (fun p => decide (p.1 < p.2))

/-- Modelled from the spec: `NDA(list_of_f_pairs, reference_point)` as a set
of vectors: the members of the input that are in the domain of the reference
point and not dominated by any other in-domain input vector. -/
def nonDominatedFront (vals : List Point) (ref : Option Point) : List Point :=
  (vals.filter (fun v => inDomain ref v)).filter
    (fun v => !(vals.filter (fun u => inDomain ref u)).any (fun u => weaklyDominates u v))

/-- The property `Sofomore.pareto_front`: recomputed on demand from the kernels whose
`objective_values` is not `None`. -/
def Sofomore.pareto_front (s : Sofomore) : List Point :=
  nonDominatedFront (s.kernels.filterMap (fun k => k.objective_values)) s.reference_point

/-- The property `Sofomore.pareto_set`: the incumbents of the kernels whose objective
vector lies on the front. -/
def Sofomore.pareto_set (s : Sofomore) : List Point :=
  (s.kernels.filter (fun k =>
    match k.objective_values with
    | none => false
    | some v => decide (v ∈ s.pareto_front))).map (fun k => k.incumbent)

/-! ### Lifecycle operations -/

/-- The scan behind `Sofomore.stop()`: walk the kernel indices, returning
`none` (Python `False`) as soon as one kernel's status is empty, otherwise
the accumulated index-to-status mapping. -/
def stopScan (kernels : List Kernel) : List ℕ → Option (List (ℕ × List String))
  | [] => some []
  | i :: rest =>
    if (kernels.getD i default).stop_status = [] then none
    else
      match stopScan kernels rest with
      | none => none
      | some res => some ((i, (kernels.getD i default).stop_status) :: res)

/-- The aggregate `Sofomore.stop()`: `False` (here `none`) unless every kernel in
`range(self.num_kernels)` reports a non-empty status, in which case the full
index-to-status mapping. -/
def Sofomore.stop (s : Sofomore) : Option (List (ℕ × List String)) :=
  stopScan s.kernels (List.range s.num_kernels.toNat)

/-- The recomputation of `_active_indices` used by `add` and `remove`:
`[idx for idx in range(self.num_kernels) if not self.kernels[idx].stop()]`. -/
def recomputeActive (kernels : List Kernel) (num : ℤ) : List ℕ :=
  (List.range num.toNat).filter (fun idx => decide ((kernels.getD idx default).stop_status = []))

/-- The operation `Sofomore.add(kernels)`: append, bump `num_kernels`, recompute the
active set. -/
def Sofomore.add (s : Sofomore) (ks : List Kernel) : Sofomore :=
  { s with kernels := s.kernels ++ ks,
           num_kernels := s.num_kernels + ks.length,
           active_indices := recomputeActive (s.kernels ++ ks) (s.num_kernels + ks.length) }

/-- One iteration of the loop in `Sofomore.remove`: delete the kernel (by
equality) when present, and decrement `num_kernels` unconditionally.  The
source also executes `self.pareto_front.remove(...)` on a hit, but
`pareto_front` is a recomputed-on-demand property, so that call mutates a
temporary object and leaves the coordinator state untouched. -/
def removeKernel (s : Sofomore) (k : Kernel) : Sofomore :=
  if k ∈ s.kernels then
    { s with kernels := s.kernels.erase k, num_kernels := s.num_kernels - 1 }
  else { s with num_kernels := s.num_kernels - 1 }

/-- The operation `Sofomore.remove(kernels)`: remove each given kernel, then recompute the
active-index list. -/
def Sofomore.remove (s : Sofomore) (ks : List Kernel) : Sofomore :=
  let s2 := ks.foldl removeKernel s
  { s2 with active_indices := recomputeActive s2.kernels s2.num_kernels }

/-! ### `Sofomore.tell` -/

/-- The operations `tell` needs from the external non-dominated-archive
collaborator, kept opaque: `hvi vals ref p` stands for
`NDA(vals, ref).hypervolume_improvement(p)` (the constructor argument may
contain `None` entries, exactly as the list comprehension in the source
does), and `hv vals ref` for `NDA(vals, ref).hypervolume`. -/
structure FrontOracle where
  hvi : List (Option Point) → Option Point → Point → ℚ
  hv : List Point → Option Point → ℚ

/-- The incumbent-update prologue of `tell`:
`for i in range(len(self._told_indices)): self.kernels[self._told_indices[i]].objective_values = objective_values[i]`
(the source assumes at least `len(told)` objective vectors were passed). -/
def setObjectives (kernels : List Kernel) (told : List ℕ) (vals : List Point) :
    List Kernel :=
  (told.zip vals).foldl
    (fun ks p => ks.set p.1 { ks.getD p.1 default with objective_values := some p.2 })
    kernels

/-- The state threaded through the per-kernel loop of `tell`, plus two logs:
`tells` records each `kernel.tell(offspring, penalized_f_values())` call
issued (kernel index and fitness vector), `added` records the index recorded
in `_told_indices` for each kernel created by the restart policy. -/
structure TellLoop where
  kernels : List Kernel
  num_kernels : ℤ
  active_indices : List ℕ
  told_indices : List ℕ
  start : ℕ
  tells : List (ℕ × List ℚ)
  added : List ℕ
  deriving DecidableEq

/-- One iteration of the `for ikernel, offspring in self.offspring` loop of
`tell`: build the front over the objective vectors of every kernel index
other than `ikernel`, compute the negated hypervolume improvements of this
kernel's slice of `objective_values`, penalize by constraint ranks
(`RankPenalizedFitness` is constructed fresh, so its `f_current_best` state
is `0`), tell the kernel, and handle termination and the restart policy
(`restart` is the kernel the restart factory would return, `none` when no
policy is configured). -/
def tellStep (F : FrontOracle) (restart : Option Kernel) (ref : Option Point)
    (objectiveValues : List Point) (constraintsValues : List (List ℚ))
    (st : TellLoop) (ofr : ℕ × ℕ) : TellLoop :=
  let ik := ofr.1
  let cnt := ofr.2
  let frontVals := ((List.range st.num_kernels.toNat).filter (fun i => i ≠ ik)).map
      (fun i => (st.kernels.getD i default).objective_values)
  let seg := (objectiveValues.drop st.start).take cnt
  let gVals := constraintsValues.map (fun c => (c.drop st.start).take cnt)
  let fitness := (RankPenalizedFitness (seg.map (fun p => -(F.hvi frontVals ref p))) gVals 0).1
  let kernels1 := st.kernels.set ik (tellKernel (st.kernels.getD ik default))
  let k1 := kernels1.getD ik default
  let st1 : TellLoop :=
    { st with kernels := kernels1,
              tells := st.tells ++ [(ik, fitness)],
              start := st.start + cnt }
  if k1.stop_status = [] then st1
  else
    let st2 : TellLoop := { st1 with active_indices := st1.active_indices.erase ik }
    match restart with
    | none => st2
    | some kr =>
      if "timeout" ∈ k1.stop_status then st2
      else
        { st2 with told_indices := st2.told_indices ++ [st2.num_kernels.toNat],
                   added := st2.added ++ [st2.num_kernels.toNat],
                   kernels := st2.kernels ++ [kr],
                   num_kernels := st2.num_kernels + 1,
                   active_indices := recomputeActive (st2.kernels ++ [kr]) (st2.num_kernels + 1) }

/-- The operation `Sofomore.tell(solutions, objective_values, constraints_values)`.  Only
the length of `solutions` matters to the source, so it is passed as a count.
Returns the new state together with the log of kernel `tell` calls issued
and the list of indices recorded for restart-created kernels.  The optional
historical archive is bookkeeping on an opaque external object that no
claimed behaviour reads back, and is not modelled. -/
def Sofomore.tell (F : FrontOracle) (restart : Option Kernel) (s : Sofomore)
    (numSolutions : ℕ) (objectiveValues : List Point)
    (constraintsValues : List (List ℚ)) :
    Sofomore × List (ℕ × List ℚ) × List ℕ :=
  if numSolutions = 0 then (s, [], [])
  else
    let kernels0 := setObjectives s.kernels s.told_indices objectiveValues
    let st0 : TellLoop :=
      ⟨kernels0, s.num_kernels, s.active_indices, [], s.told_indices.length, [], []⟩
    let stF := s.offspring.foldl
      (tellStep F restart s.reference_point objectiveValues constraintsValues) st0
    let cur := F.hv (stF.kernels.filterMap (fun k => k.objective_values)) s.reference_point
    let eps := |cur - s.best_hypervolume|
    ({ s with kernels := stF.kernels,
              num_kernels := stF.num_kernels,
              active_indices := stF.active_indices,
              told_indices := stF.told_indices ++ s.offspring.map Prod.fst,
              countiter := s.countiter + 1,
              countevals := s.countevals + objectiveValues.length,
              epsilon_hypervolume :=
                if eps = 0 then s.epsilon_hypervolume else min s.epsilon_hypervolume eps,
              best_hypervolume := max s.best_hypervolume cur },
     stF.tells, stF.added)

/-- The fitness vectors `tell` is specified to hand to the asked kernels
(claim C1, spelled from the spec): walking the `(kernel index, batch size)`
pairs with a running offset, each kernel receives, for every objective
vector in its slice, the negated hypervolume improvement of that vector
against the front built from the objective vectors of every kernel index
other than its own. -/
def baselineTells (hvi : List (Option Point) → Option Point → Point → ℚ)
    (objVals : List (Option Point)) (ref : Option Point) (values : List Point) :
    ℕ → List (ℕ × ℕ) → List (ℕ × List ℚ)
  | _, [] => []
  | start, (ik, cnt) :: rest =>
    (ik, ((values.drop start).take cnt).map (fun p =>
        -(hvi (((List.range objVals.length).filter (fun i => i ≠ ik)).map
            (fun i => objVals.getD i none)) ref p)))
      :: baselineTells hvi objVals ref values (start + cnt) rest

/-! ## Claim-side definitions for the constraint-penalty claims

Claim C4 describes the synthesized fitness of an infeasible candidate.  To
compare the description with the code, the description is spelled out as its
own definition, first literally as the claim words it ("ascending 1-based
rank", extrapolation anchored on "the best feasible value"), then in the
amended form the code actually satisfies ("0-based rank", extrapolation
anchored on the largest feasible value). -/

/-- The per-constraint penalty contribution exactly as claim C4 words it:
for a candidate infeasible under the constraint (value `> 0`), "the
ascending 1-based rank of that constraint's value over the whole batch minus
the number of candidates feasible under that constraint plus 1 (and at least
1)"; `0` for a feasible one. -/
def claimContrib (g : List ℚ) (i : ℕ) : ℕ :=
  if 0 < g.getD i 0 then max (rankAt g i + 1 - nbFeas g + 1) 1 else 0

/-- The order statistic as claim C4 words it: the `k`-th sorted feasible
value, "with order statistics beyond the feasible count extrapolated by
adding the integer excess to the best feasible value (anchored on a
remembered historical best-feasible value across calls when there are no
feasible candidates)". -/
def orderStatClaimed (fv : List ℚ) (fcb : ℚ) (k : ℕ) : ℚ :=
  if fv.length = 0 then fcb + (k : ℚ)
  else if k < fv.length then fv.getD k 0
  else fv.getD 0 0 + ((k - (fv.length - 1) : ℕ) : ℚ)

/-- The synthesized value of an infeasible candidate exactly as claim C4
words it: linear interpolation between the `floor(j)`-th and `ceil(j)`-th
order statistics of the sorted feasible f-values, at
`j = 0.2 * (num_feasible - 1) + 1.01 * (sum of penalty contributions - 1)`
clamped to be `≥ 0`, with the contributions and order statistics of the
claim. -/
def synthesizedValueClaimed (fValues : List ℚ) (gList : List (List ℚ)) (fcb : ℚ)
    (i : ℕ) : ℚ :=
  let sf := sortedFeasValues fValues gList
  let fcb2 := sf.headD fcb
  let j : ℚ :=
    max ((1/5) * (((feasIndices fValues.length gList).length : ℚ) - 1) +
         (101/100) * (((gList.map (fun g => claimContrib g i)).sum : ℚ) - 1)) 0
  if (⌊j⌋).toNat < (⌈j⌉).toNat then
    (j - ((⌊j⌋).toNat : ℚ)) * orderStatClaimed sf fcb2 ((⌈j⌉).toNat) +
      (((⌈j⌉).toNat : ℚ) - j) * orderStatClaimed sf fcb2 ((⌊j⌋).toNat)
  else orderStatClaimed sf fcb2 ((⌊j⌋).toNat)

/-- The per-constraint penalty contribution as amended: the ascending
0-based stable rank of the constraint's value over the whole batch, minus
the number of candidates feasible under that constraint, plus 1 (a value
that is automatically `≥ 1`) when the candidate is infeasible under that
constraint; `0` when feasible. -/
def claimContribAmended (g : List ℚ) (i : ℕ) : ℕ :=
  if 0 < g.getD i 0 then rankAt g i - nbFeas g + 1 else 0

/-- The order statistic as amended: sorted feasible values, with order
statistics beyond the feasible count extrapolated by adding the integer
excess to the largest (i.e. worst) feasible value, and anchored on the
remembered historical best-feasible value when there are no feasible
candidates. -/
def orderStatAmended (fv : List ℚ) (fcb : ℚ) (k : ℕ) : ℚ :=
  if fv.length = 0 then fcb + (k : ℚ)
  else if k < fv.length then fv.getD k 0
  else fv.getD (fv.length - 1) 0 + ((k - (fv.length - 1) : ℕ) : ℚ)

/-- The synthesized value of an infeasible candidate as amended: as claimed,
but with 0-based ranks and with extrapolation anchored on the largest
feasible value. -/
def synthesizedValueAmended (fValues : List ℚ) (gList : List (List ℚ)) (fcb : ℚ)
    (i : ℕ) : ℚ :=
  let sf := sortedFeasValues fValues gList
  let fcb2 := sf.headD fcb
  let j : ℚ :=
    max ((1/5) * (((feasIndices fValues.length gList).length : ℚ) - 1) +
         (101/100) * (((gList.map (fun g => claimContribAmended g i)).sum : ℚ) - 1)) 0
  if (⌊j⌋).toNat < (⌈j⌉).toNat then
    (j - ((⌊j⌋).toNat : ℚ)) * orderStatAmended sf fcb2 ((⌈j⌉).toNat) +
      (((⌈j⌉).toNat : ℚ) - j) * orderStatAmended sf fcb2 ((⌊j⌋).toNat)
  else orderStatAmended sf fcb2 ((⌊j⌋).toNat)

/-- The index `j0` at which the base percentile of the feasible values sits,
clamped to `≥ 0` the way the code clamps every interpolation index: the
lowest index an infeasible candidate can be interpolated at (used by the
amended form of claim C6). -/
def rpfBaseIndex (n : ℕ) (gList : List (List ℚ)) : ℚ :=
  max ((1/5) * (((feasIndices n gList).length : ℚ) - 1)) 0

/-! ## Concrete fixtures used by witnesses and counterexamples -/

/-- The `sort_increasing` ordering key of the source: `key(i) = i`. -/
def keyId : ℕ → ℚ := fun i => (i : ℚ)

/-- A concrete front oracle for witnesses: hypervolume improvement reads the
first coordinate of the point, hypervolume is constantly zero.  (The claims
about `tell` hold for an arbitrary oracle; a witness only needs one.) -/
def F0 : FrontOracle := ⟨fun _ _ p => p.headD 0, fun _ _ => 0⟩

/-- A running kernel with incumbent `[0]` and objective vector `[0, 0]`. -/
def kW0 : Kernel := ⟨[0], some [0, 0], [], []⟩

/-- A running kernel with incumbent `[1]` and objective vector `[3, 1]`. -/
def kW1 : Kernel := ⟨[1], some [3, 1], [], []⟩

/-- A kernel that does not belong to the witness pools below. -/
def kOut : Kernel := ⟨[9], some [9, 9], [], []⟩

/-- A two-kernel coordinator state in its post-`ask` shape: both incumbents
pending evaluation, kernel 0 sampled one offspring. -/
def sW : Sofomore :=
  ⟨[kW0, kW1], 2, [0, 1], [0, 1], [(0, 1)], some [2, 2], 0, 0, 0, 1⟩

/-- A third running kernel for the three-kernel P6 scenario. -/
def kP2 : Kernel := ⟨[2], some [2, 0], [], []⟩

/-- The P6 scenario state right after the first `ask(2)` with the
index-ascending ordering key: three kernels with two objectives, reference
point `(1.1, 1.1)`, all three incumbents pending evaluation
(`_told_indices = [0, 1, 2]`), and one offspring sampled from each of
kernels 0 and 1. -/
def sP6 : Sofomore :=
  ⟨[kW0, kW1, kP2], 3, [0, 1, 2], [0, 1, 2], [(0, 1), (1, 1)],
    some [11/10, 11/10], 0, 0, 0, 1⟩

/-- Two distinct kernels sharing the objective vector `[0, 0]`. -/
def kDupA : Kernel := ⟨[0], some [0, 0], [], []⟩

/-- See `kDupA`: same objective vector, different incumbent. -/
def kDupB : Kernel := ⟨[1], some [0, 0], [], []⟩

/-- A coordinator state holding the two duplicate-vector kernels. -/
def sDup : Sofomore :=
  ⟨[kDupA, kDupB], 2, [0, 1], [], [], some [1, 1], 0, 0, 0, 1⟩

/-! # Theorems -/

/-! ## Generic list lemmas -/

lemma getD_map_range {β : Type} (n : ℕ) (f : ℕ → β) (i : ℕ) (hi : i < n) (d : β) :
    ((List.range n).map f).getD i d = f i := by
  rw [List.getD_eq_getElem _ _ (by simpa using hi)]
  simp

lemma map_getD_self (l : List ℚ) :
    (List.range l.length).map (fun i => l.getD i 0) = l := by
  induction l with
  | nil => rfl
  | cons x t ih =>
    rw [List.length_cons, List.range_succ_eq_map, List.map_cons, List.map_map]
    refine congrArg (x :: ·) ?_
    have hfun : ((fun i => (x :: t).getD i 0) ∘ Nat.succ) = (fun i => t.getD i 0) := by
      funext i
      simp [List.getD]
    rw [hfun]
    exact ih

lemma set_getD_self {α : Type} (l : List α) (i : ℕ) (d : α) :
    l.set i (l.getD i d) = l := by
  induction l generalizing i with
  | nil => rfl
  | cons x t ih =>
    cases i with
    | zero => rfl
    | succ n => simpa using ih n

lemma length_filter_range (n : ℕ) (p : ℕ → Prop) [DecidablePred p] :
    ((List.range n).filter (fun k => decide (p k))).length
      = ((Finset.range n).filter p).card := by
  simp [Finset.range, Finset.filter, Multiset.range, Multiset.filter,
    List.countP_eq_length_filter]

lemma filter_length_eq_range (g : List ℚ) (p : ℚ → Prop) [DecidablePred p] :
    (g.filter (fun x => decide (p x))).length
      = ((List.range g.length).filter (fun k => decide (p (g.getD k 0)))).length := by
  induction g with
  | nil => rfl
  | cons x t ih =>
    rw [List.length_cons, List.range_succ_eq_map]
    have hmap : (((List.range t.length).map Nat.succ).filter
          (fun k => decide (p ((x :: t).getD k 0))))
        = ((List.range t.length).filter (fun k => decide (p (t.getD k 0)))).map Nat.succ := by
      rw [List.filter_map]
      rfl
    have h0 : (x :: t).getD 0 0 = x := rfl
    by_cases hp : p x
    · simp only [List.filter_cons, h0, hmap, hp, decide_eq_true_eq, if_true,
        List.length_cons, List.length_map]
      simp [ih, List.getD]
    · simp only [List.filter_cons, h0, hmap, hp, decide_eq_true_eq, if_false,
        List.length_map]
      simp [hp, ih, List.getD]

/-! ## Rank and penalty lemmas -/

lemma rankAt_eq_cards (g : List ℚ) (i : ℕ) :
    rankAt g i
      = ((Finset.range g.length).filter (fun k => g.getD k 0 < g.getD i 0)).card
        + ((Finset.range i).filter (fun k => g.getD k 0 = g.getD i 0)).card := by
  rw [rankAt, length_filter_range, length_filter_range]

lemma nbFeas_eq_card (g : List ℚ) :
    nbFeas g = ((Finset.range g.length).filter (fun k => g.getD k 0 ≤ 0)).card := by
  rw [nbFeas, filter_length_eq_range, length_filter_range]

/-- The pivotal fact about the stable 0-based ranks used by
`RankPenalizedFitness`: since every feasible constraint value (`≤ 0`) is
strictly smaller than every infeasible one (`> 0`), an entry's rank reaches
the feasible count exactly when the entry is infeasible.  This is what makes
the code's rank-threshold test `g >= nb_feas` equivalent to the per-candidate
feasibility test. -/
lemma nbFeas_le_rankAt_iff (g : List ℚ) (i : ℕ) (hi : i < g.length) :
    nbFeas g ≤ rankAt g i ↔ 0 < g.getD i 0 := by
  constructor
  · intro h
    by_contra hpos
    push_neg at hpos
    -- feasible entry: its rank counts a subset of the feasible entries other
    -- than itself, hence is < nbFeas
    have hsub : ((Finset.range g.length).filter (fun k => g.getD k 0 < g.getD i 0))
          ∪ ((Finset.range i).filter (fun k => g.getD k 0 = g.getD i 0))
        ⊆ ((Finset.range g.length).filter (fun k => g.getD k 0 ≤ 0)).erase i := by
      intro k hk
      rcases Finset.mem_union.mp hk with hk | hk
      · rcases Finset.mem_filter.mp hk with ⟨hk1, hk2⟩
        refine Finset.mem_erase.mpr ⟨?_, Finset.mem_filter.mpr ⟨hk1, le_trans (le_of_lt hk2) hpos⟩⟩
        intro he; rw [he] at hk2; exact lt_irrefl _ hk2
      · rcases Finset.mem_filter.mp hk with ⟨hk1, hk2⟩
        have hki : k < i := Finset.mem_range.mp hk1
        refine Finset.mem_erase.mpr ⟨Nat.ne_of_lt hki, Finset.mem_filter.mpr
          ⟨Finset.mem_range.mpr (lt_trans hki hi), hk2 ▸ hpos⟩⟩
    have hdisj : Disjoint
        ((Finset.range g.length).filter (fun k => g.getD k 0 < g.getD i 0))
        ((Finset.range i).filter (fun k => g.getD k 0 = g.getD i 0)) := by
      rw [Finset.disjoint_left]
      intro k hk1 hk2
      have h1 := (Finset.mem_filter.mp hk1).2
      have h2 := (Finset.mem_filter.mp hk2).2
      rw [h2] at h1
      exact absurd h1 (lt_irrefl _)
    have hmem : i ∈ (Finset.range g.length).filter (fun k => g.getD k 0 ≤ 0) :=
      Finset.mem_filter.mpr ⟨Finset.mem_range.mpr hi, hpos⟩
    have hcard := Finset.card_le_card hsub
    rw [Finset.card_union_of_disjoint hdisj] at hcard
    have herase : (((Finset.range g.length).filter (fun k => g.getD k 0 ≤ 0)).erase i).card
        = ((Finset.range g.length).filter (fun k => g.getD k 0 ≤ 0)).card - 1 :=
      Finset.card_erase_of_mem hmem
    have hpos2 : 1 ≤ ((Finset.range g.length).filter (fun k => g.getD k 0 ≤ 0)).card :=
      Finset.card_pos.mpr ⟨i, hmem⟩
    rw [rankAt_eq_cards] at h
    rw [nbFeas_eq_card] at h
    omega
  · intro h
    -- infeasible entry: every feasible entry is strictly smaller, so the
    -- feasible set injects into the strictly-smaller set counted by the rank
    have hsub : ((Finset.range g.length).filter (fun k => g.getD k 0 ≤ 0))
        ⊆ ((Finset.range g.length).filter (fun k => g.getD k 0 < g.getD i 0)) := by
      intro k hk
      rcases Finset.mem_filter.mp hk with ⟨hk1, hk2⟩
      exact Finset.mem_filter.mpr ⟨hk1, lt_of_le_of_lt hk2 h⟩
    have := Finset.card_le_card hsub
    rw [nbFeas_eq_card, rankAt_eq_cards]
    omega

lemma gRanks_getD (g : List ℚ) (i : ℕ) (hi : i < g.length) :
    (gRanks g).getD i 0
      = if nbFeas g ≤ rankAt g i then rankAt g i - nbFeas g + 1 else 0 := by
  rw [gRanks, ranks, List.map_map]
  exact getD_map_range g.length _ i hi 0

/-- The contribution computed by the code (`gRanks`) agrees with the amended
description: gated on per-candidate infeasibility rather than on the rank
threshold. -/
lemma gRanks_getD_eq_contrib (g : List ℚ) (i : ℕ) (hi : i < g.length) :
    (gRanks g).getD i 0 = claimContribAmended g i := by
  rw [gRanks_getD g i hi, claimContribAmended]
  by_cases h : 0 < g.getD i 0
  · rw [if_pos ((nbFeas_le_rankAt_iff g i hi).mpr h), if_pos h]
  · rw [if_neg (fun hle => h ((nbFeas_le_rankAt_iff g i hi).mp hle)), if_neg h]

lemma isFeasible_iff (gList : List (List ℚ)) (i : ℕ) :
    isFeasible gList i = true ↔ ∀ d < gList.length, (gList.getD d []).getD i 0 ≤ 0 := by
  rw [isFeasible, List.all_eq_true]
  constructor
  · intro h d hd
    have hmem : gList.getD d [] ∈ gList := by
      rw [List.getD_eq_getElem _ _ hd]
      exact List.getElem_mem _
    simpa using h _ hmem
  · intro h g hg
    rcases List.mem_iff_getElem.mp hg with ⟨d, hd, rfl⟩
    have := h d hd
    rw [List.getD_eq_getElem _ _ hd] at this
    simpa using this

lemma isFeasible_false_of_pos (gList : List (List ℚ)) (c i : ℕ)
    (hc : c < gList.length) (hpos : 0 < (gList.getD c []).getD i 0) :
    isFeasible gList i = false := by
  cases h : isFeasible gList i with
  | false => rfl
  | true => exact absurd ((isFeasible_iff gList i).mp h c hc) (not_le.mpr hpos)

/-! ## Reading off entries of the penalized fitness vector -/

lemma rpf_getD_feasible (f : List ℚ) (gList : List (List ℚ)) (fcb : ℚ) (i : ℕ)
    (hi : i < f.length) (hfeas : isFeasible gList i = true) :
    (RankPenalizedFitness f gList fcb).1.getD i 0 = f.getD i 0 := by
  rw [RankPenalizedFitness]
  rw [getD_map_range f.length _ i hi 0]
  simp [hfeas]

lemma rpf_getD_infeasible (f : List ℚ) (gList : List (List ℚ)) (fcb : ℚ) (i : ℕ)
    (hi : i < f.length) (hinf : isFeasible gList i = false) :
    (RankPenalizedFitness f gList fcb).1.getD i 0
      = interpAt (sortedFeasValues f gList) ((sortedFeasValues f gList).headD fcb)
          (rpfIndex f.length gList i) := by
  rw [RankPenalizedFitness]
  rw [getD_map_range f.length _ i hi 0]
  simp [hinf]

/-- C5: if every constraint value of every candidate is `≤ 0`, the
rank-penalized fitness returns the input f-values unchanged, entry for
entry. -/
theorem rpf_identity_all_feasible (fValues : List ℚ) (gList : List (List ℚ))
    (fcb : ℚ) (h : ∀ g ∈ gList, ∀ x ∈ g, x ≤ 0) :
    (RankPenalizedFitness fValues gList fcb).1 = fValues := by
  have hfeas : ∀ i, isFeasible gList i = true := by
    intro i
    rw [isFeasible, List.all_eq_true]
    intro g hg
    rcases lt_or_le i g.length with hi | hi
    · have hmem : g.getD i 0 ∈ g := by
        rw [List.getD_eq_getElem _ _ hi]
        exact List.getElem_mem _
      simpa using h g hg _ hmem
    · rw [List.getD_eq_default _ _ hi]
      simp
  rw [RankPenalizedFitness]
  simpa [hfeas] using map_getD_self fValues

/-- Witness for C5 at a concrete batch. -/
theorem rpf_identity_all_feasible_witness :
    (∀ g ∈ [[(-1 : ℚ), 0]], ∀ x ∈ g, x ≤ 0) ∧
    (RankPenalizedFitness [3, 7] [[(-1 : ℚ), 0]] 0).1 = [3, 7] :=
  ⟨by norm_num, rpf_identity_all_feasible _ _ _ (by norm_num)⟩

/-- C2: for a positive `number_to_ask`, the scheduler sorts the remaining
pool by the ordering key; when the request fits, it takes the first
`number_to_ask` sorted indices and keeps the rest as the new pool; when it
does not, it takes the whole sorted pool, refills the shortfall from the
full active-index list sorted by the same key, and the unconsumed tail of
that second sort becomes the new pool. -/
theorem indicesToAsk_spec (key : ℕ → ℚ) (active pool : List ℕ) (n : ℕ)
    (hpos : 0 < n) :
    (n ≤ (sortIndices key pool).length →
      indicesToAsk key active pool n
        = ((sortIndices key pool).take n, (sortIndices key pool).drop n)) ∧
    ((sortIndices key pool).length < n →
      indicesToAsk key active pool n
        = (sortIndices key pool
             ++ (sortIndices key active).take (n - (sortIndices key pool).length),
           (sortIndices key active).drop (n - (sortIndices key pool).length))) := by
  constructor
  · intro h
    rw [indicesToAsk]
    simp [h]
  · intro h
    rw [indicesToAsk]
    simp [Nat.not_le.mpr h]

/-- Witness for C2: two pooled indices, request 1, index-ascending key. -/
theorem indicesToAsk_spec_witness :
    0 < 1 ∧
    ((1 ≤ (sortIndices keyId [1, 2]).length →
      indicesToAsk keyId [0, 1, 2] [1, 2] 1
        = ((sortIndices keyId [1, 2]).take 1, (sortIndices keyId [1, 2]).drop 1)) ∧
    ((sortIndices keyId [1, 2]).length < 1 →
      indicesToAsk keyId [0, 1, 2] [1, 2] 1
        = (sortIndices keyId [1, 2]
             ++ (sortIndices keyId [0, 1, 2]).take (1 - (sortIndices keyId [1, 2]).length),
           (sortIndices keyId [0, 1, 2]).drop (1 - (sortIndices keyId [1, 2]).length)))) :=
  ⟨Nat.one_pos, indicesToAsk_spec keyId [0, 1, 2] [1, 2] 1 Nat.one_pos⟩

/-! ## Stop aggregation (C8) -/

lemma stopScan_eq_none_iff (kernels : List Kernel) (idxs : List ℕ) :
    stopScan kernels idxs = none
      ↔ ∃ i ∈ idxs, (kernels.getD i default).stop_status = [] := by
  induction idxs with
  | nil => simp [stopScan]
  | cons a t ih =>
    constructor
    · intro hnone
      rw [stopScan] at hnone
      by_cases h : (kernels.getD a default).stop_status = []
      · exact ⟨a, List.mem_cons_self a t, h⟩
      · rw [if_neg h] at hnone
        cases hscan : stopScan kernels t with
        | none =>
          rcases ih.mp hscan with ⟨i, hi, hs⟩
          exact ⟨i, List.mem_cons_of_mem _ hi, hs⟩
        | some r =>
          rw [hscan] at hnone
          exact Option.noConfusion hnone
    · rintro ⟨i, hi, hs⟩
      rw [stopScan]
      rcases List.mem_cons.mp hi with rfl | hi2
      · rw [if_pos hs]
      · by_cases h : (kernels.getD a default).stop_status = []
        · rw [if_pos h]
        · rw [if_neg h, ih.mpr ⟨i, hi2, hs⟩]

lemma stopScan_eq_map (kernels : List Kernel) (idxs : List ℕ)
    (h : ∀ i ∈ idxs, (kernels.getD i default).stop_status ≠ []) :
    stopScan kernels idxs
      = some (idxs.map (fun i => (i, (kernels.getD i default).stop_status))) := by
  induction idxs with
  | nil => rfl
  | cons a t ih =>
    rw [stopScan, if_neg (h a (List.mem_cons_self a t)),
      ih (fun i hi => h i (List.mem_cons_of_mem _ hi))]
    rfl

/-- C8: `stop()` returns the failure sentinel (`none`, Python `False`)
exactly when some kernel's individual stop status is empty, and returns the
full mapping from every kernel index to that kernel's stop status exactly
when all kernels report a non-empty status. -/
theorem stop_aggregation (s : Sofomore)
    (hnum : s.num_kernels = (s.kernels.length : ℤ)) :
    (Sofomore.stop s = none ↔
      ∃ i < s.num_kernels.toNat, (s.kernels.getD i default).stop_status = []) ∧
    (Sofomore.stop s
        = some ((List.range s.num_kernels.toNat).map
            (fun i => (i, (s.kernels.getD i default).stop_status)))
      ↔ ∀ i < s.num_kernels.toNat, (s.kernels.getD i default).stop_status ≠ []) := by
  constructor
  · rw [Sofomore.stop, stopScan_eq_none_iff]
    constructor
    · rintro ⟨i, hi, hs⟩
      exact ⟨i, List.mem_range.mp hi, hs⟩
    · rintro ⟨i, hi, hs⟩
      exact ⟨i, List.mem_range.mpr hi, hs⟩
  · constructor
    · intro hsome i hi hempty
      have hnone : Sofomore.stop s = none := by
        rw [Sofomore.stop, stopScan_eq_none_iff]
        exact ⟨i, List.mem_range.mpr hi, hempty⟩
      rw [hnone] at hsome
      exact Option.noConfusion hsome
    · intro hall
      rw [Sofomore.stop]
      exact stopScan_eq_map _ _ (fun i hi => hall i (List.mem_range.mp hi))

/-- Witness for C8 on the two-kernel state `sW` (both kernels running, so
`stop()` is the sentinel and the mapping form is refuted). -/
theorem stop_aggregation_witness :
    sW.num_kernels = (sW.kernels.length : ℤ) ∧
    ((Sofomore.stop sW = none ↔
      ∃ i < sW.num_kernels.toNat, (sW.kernels.getD i default).stop_status = []) ∧
    (Sofomore.stop sW
        = some ((List.range sW.num_kernels.toNat).map
            (fun i => (i, (sW.kernels.getD i default).stop_status)))
      ↔ ∀ i < sW.num_kernels.toNat, (sW.kernels.getD i default).stop_status ≠ [])) :=
  ⟨rfl, stop_aggregation sW rfl⟩

/-! ## Removal bookkeeping (C10) -/

lemma removeKernel_num (s : Sofomore) (k : Kernel) :
    (removeKernel s k).num_kernels = s.num_kernels - 1 := by
  rw [removeKernel]
  split <;> rfl

lemma foldl_removeKernel_num (ks : List Kernel) :
    ∀ s : Sofomore, (ks.foldl removeKernel s).num_kernels
      = s.num_kernels - ks.length := by
  induction ks with
  | nil => intro s; simp
  | cons k t ih =>
    intro s
    rw [List.foldl_cons, ih, removeKernel_num]
    simp only [List.length_cons]
    push_cast
    ring

/-- C10: `remove` decrements `num_kernels` once per element of its argument
list whether or not the element belongs to the pool; in particular removing
a kernel that is not in the pool leaves the kernel list unchanged while
still decrementing the counter, after which `num_kernels` no longer equals
the length of the kernel list. -/
theorem remove_decrements_unconditionally (s : Sofomore) (ks : List Kernel)
    (k : Kernel) (hk : k ∉ s.kernels) :
    (Sofomore.remove s ks).num_kernels = s.num_kernels - ks.length ∧
    (Sofomore.remove s [k]).kernels = s.kernels ∧
    (Sofomore.remove s [k]).num_kernels = s.num_kernels - 1 ∧
    (s.num_kernels = (s.kernels.length : ℤ) →
      (Sofomore.remove s [k]).num_kernels
        ≠ (((Sofomore.remove s [k]).kernels.length : ℕ) : ℤ)) := by
  have hsingle : ([k].foldl removeKernel s) = removeKernel s k := rfl
  have hkern : (removeKernel s k).kernels = s.kernels := by
    rw [removeKernel, if_neg hk]
  refine ⟨?_, ?_, ?_, ?_⟩
  · rw [Sofomore.remove]
    exact foldl_removeKernel_num ks s
  · rw [Sofomore.remove]
    simpa [hsingle] using hkern
  · rw [Sofomore.remove]
    simpa [hsingle] using removeKernel_num s k
  · intro hlen
    rw [Sofomore.remove]
    simp only [hsingle, hkern, removeKernel_num]
    rw [hlen]
    omega

/-- Witness for C10: removing `kOut`, which is not in `sW`, still
decrements the counter and desynchronizes it from the list length. -/
theorem remove_decrements_unconditionally_witness :
    kOut ∉ sW.kernels ∧
    ((Sofomore.remove sW [kOut]).num_kernels = sW.num_kernels - ([kOut] : List Kernel).length ∧
    (Sofomore.remove sW [kOut]).kernels = sW.kernels ∧
    (Sofomore.remove sW [kOut]).num_kernels = sW.num_kernels - 1 ∧
    (sW.num_kernels = (sW.kernels.length : ℤ) →
      (Sofomore.remove sW [kOut]).num_kernels
        ≠ (((Sofomore.remove sW [kOut]).kernels.length : ℕ) : ℤ))) :=
  ⟨by decide, remove_decrements_unconditionally sW [kOut] kOut (by decide)⟩

/-! ## Scheduler fairness (C3) -/

lemma runAsks_mem (key : ℕ → ℚ) (active : List ℕ) (a : ℕ) :
    ∀ (requests pool : List ℕ), a ∈ pool → pool.length ≤ requests.sum →
      a ∈ runAsks key active requests pool := by
  intro requests
  induction requests with
  | nil =>
    intro pool hmem hlen
    have h0 : pool.length = 0 := Nat.le_zero.mp (by simpa using hlen)
    rw [List.length_eq_zero.mp h0] at hmem
    exact absurd hmem (List.not_mem_nil a)
  | cons n rest ih =>
    intro pool hmem hlen
    rw [runAsks]
    have hsorted : a ∈ sortIndices key pool :=
      ((List.perm_insertionSort _ pool).mem_iff).mpr hmem
    by_cases hle : n ≤ (sortIndices key pool).length
    · simp only [indicesToAsk, hle, if_true]
      rw [← List.take_append_drop n (sortIndices key pool)] at hsorted
      rcases List.mem_append.mp hsorted with h | h
      · exact List.mem_append_left _ h
      · refine List.mem_append_right _ (ih _ h ?_)
        have hplen : (sortIndices key pool).length = pool.length :=
          (List.perm_insertionSort _ pool).length_eq
        rw [List.sum_cons] at hlen
        simp only [List.length_drop, hplen]
        omega
    · simp only [indicesToAsk, hle, if_false]
      exact List.mem_append_left _ (List.mem_append_left _ hsorted)

/-- C3: starting from the state the coordinator is constructed in (the
remaining pool is the full active-index list), any sequence of
`_indices_to_ask` rounds whose requests sum to at least the number of
active kernels chooses every active kernel index at least once, for every
ordering key. -/
theorem scheduler_fairness (key : ℕ → ℚ) (active requests : List ℕ)
    (hpos : ∀ n ∈ requests, 0 < n)
    (hsum : active.length ≤ requests.sum) :
    ∀ a ∈ active, a ∈ runAsks key active requests active :=
  fun a ha => runAsks_mem key active a requests active ha hsum

/-- Witness for C3: two active kernels, two rounds of one request each. -/
theorem scheduler_fairness_witness :
    (∀ n ∈ ([1, 1] : List ℕ), 0 < n) ∧
    ([1, 0] : List ℕ).length ≤ ([1, 1] : List ℕ).sum ∧
    (∀ a ∈ ([1, 0] : List ℕ), a ∈ runAsks keyId [1, 0] [1, 1] [1, 0]) :=
  ⟨by decide, by decide, scheduler_fairness keyId [1, 0] [1, 1] (by decide) (by decide)⟩

/-! ## Told-set and counters after `tell` (C7) -/

lemma tellStep_told_eq_added (F : FrontOracle) (restart : Option Kernel)
    (ref : Option Point) (vals : List Point) (cons : List (List ℚ))
    (st : TellLoop) (ofr : ℕ × ℕ) (h : st.told_indices = st.added) :
    (tellStep F restart ref vals cons st ofr).told_indices
      = (tellStep F restart ref vals cons st ofr).added := by
  rw [tellStep]
  split
  · exact h
  · split
    · exact h
    · split
      · exact h
      · simpa using h

lemma tellLoop_told_eq_added (F : FrontOracle) (restart : Option Kernel)
    (ref : Option Point) (vals : List Point) (cons : List (List ℚ)) :
    ∀ (ofs : List (ℕ × ℕ)) (st : TellLoop), st.told_indices = st.added →
      (ofs.foldl (tellStep F restart ref vals cons) st).told_indices
        = (ofs.foldl (tellStep F restart ref vals cons) st).added := by
  intro ofs
  induction ofs with
  | nil => intro st h; exact h
  | cons o rest ih =>
    intro st h
    exact ih _ (tellStep_told_eq_added F restart ref vals cons st o h)

/-- C7 as amended: after a `tell` with a non-empty solutions batch, the
told-set is reset to exactly the indices recorded for restart-created
kernels followed by the kernel indices asked this round — the indices that
were told before the call are dropped, so the new told-set is (as a set)
asked ∪ newly-added, not the union of the previous told-set with the asked
set — the round counter grows by exactly one, and the evaluation counter
grows by exactly the number of objective vectors passed. -/
theorem tell_told_set_and_counters (F : FrontOracle) (restart : Option Kernel)
    (s : Sofomore) (numSolutions : ℕ) (vals : List Point)
    (cons : List (List ℚ)) (hsol : numSolutions ≠ 0) :
    (Sofomore.tell F restart s numSolutions vals cons).1.told_indices
      = (Sofomore.tell F restart s numSolutions vals cons).2.2
          ++ s.offspring.map Prod.fst ∧
    (Sofomore.tell F restart s numSolutions vals cons).1.countiter
      = s.countiter + 1 ∧
    (Sofomore.tell F restart s numSolutions vals cons).1.countevals
      = s.countevals + vals.length := by
  rw [Sofomore.tell, if_neg hsol]
  refine ⟨?_, rfl, rfl⟩
  exact congrArg (· ++ s.offspring.map Prod.fst)
    (tellLoop_told_eq_added F restart s.reference_point vals cons s.offspring
      ⟨setObjectives s.kernels s.told_indices vals, s.num_kernels, s.active_indices, [],
        s.told_indices.length, [], []⟩ rfl)

/-- C7 counterexample, the P6 scenario itself: three kernels with the
told-set `{0, 1, 2}` entering `tell` and kernels 0 and 1 asked.  The source
(`self._told_indices = []` at line 307, then `+= [u for (u, v) in
self.offspring]` at line 341) resets the told-set to the asked indices
`[0, 1]`; no restart kernel is added.  Index 2, a member of the claimed
told ∪ asked = `{0, 1, 2}`, is not in the new told-set, so the claim's
stated P6 instance is false. -/
theorem tell_told_union_counterexample :
    sP6.told_indices = [0, 1, 2] ∧
    sP6.offspring.map Prod.fst = [0, 1] ∧
    (Sofomore.tell F0 none sP6 5
        [[0, 0], [1, 0], [2, 0], [0, 1], [1, 1]] []).1.told_indices = [0, 1] ∧
    (Sofomore.tell F0 none sP6 5
        [[0, 0], [1, 0], [2, 0], [0, 1], [1, 1]] []).2.2 = [] ∧
    2 ∉ (Sofomore.tell F0 none sP6 5
        [[0, 0], [1, 0], [2, 0], [0, 1], [1, 1]] []).1.told_indices := by
  refine ⟨rfl, rfl, ?_, ?_, ?_⟩ <;> decide

/-- Witness for C7 on the two-kernel state `sW`: three objective vectors
(two incumbents, one offspring of kernel 0). -/
theorem tell_told_set_and_counters_witness :
    (3 : ℕ) ≠ 0 ∧
    ((Sofomore.tell F0 none sW 3 [[1, 1], [2, 2], [0, 3]] []).1.told_indices
      = (Sofomore.tell F0 none sW 3 [[1, 1], [2, 2], [0, 3]] []).2.2
          ++ sW.offspring.map Prod.fst ∧
    (Sofomore.tell F0 none sW 3 [[1, 1], [2, 2], [0, 3]] []).1.countiter
      = sW.countiter + 1 ∧
    (Sofomore.tell F0 none sW 3 [[1, 1], [2, 2], [0, 3]] []).1.countevals
      = sW.countevals + ([[1, 1], [2, 2], [0, 3]] : List Point).length) :=
  ⟨by decide, tell_told_set_and_counters F0 none sW 3 [[1, 1], [2, 2], [0, 3]] [] (by decide)⟩

/-! ## Baseline fitness assignment in `tell` (C1) -/

lemma rpf_nil (f : List ℚ) (fcb : ℚ) :
    (RankPenalizedFitness f [] fcb).1 = f := by
  rw [RankPenalizedFitness]
  simpa [isFeasible] using map_getD_self f

lemma getD_map_objective (ks : List Kernel) (i : ℕ) :
    (ks.map (fun k => k.objective_values)).getD i none
      = (ks.getD i default).objective_values := by
  induction ks generalizing i with
  | nil => rfl
  | cons x t ih =>
    cases i with
    | zero => rfl
    | succ n => simpa using ih n

lemma getD_map {α β : Type} (f : α → β) (l : List α) (i : ℕ) (d : α) :
    (l.map f).getD i (f d) = f (l.getD i d) := by
  induction l generalizing i with
  | nil => rfl
  | cons x t ih =>
    cases i with
    | zero => rfl
    | succ n => simpa using ih n

lemma map_set {α β : Type} (f : α → β) (l : List α) (i : ℕ) (v : α) :
    (l.set i v).map f = (l.map f).set i (f v) := by
  induction l generalizing i with
  | nil => rfl
  | cons x t ih =>
    cases i with
    | zero => rfl
    | succ n => simpa using ih n

lemma getD_set_lt {α : Type} (l : List α) (i : ℕ) (v : α) (d : α)
    (h : i < l.length) : (l.set i v).getD i d = v := by
  induction l generalizing i with
  | nil => exact absurd h (by simp)
  | cons x t ih =>
    cases i with
    | zero => rfl
    | succ n => simpa using ih n (by simpa using h)

lemma set_of_length_le {α : Type} (l : List α) (i : ℕ) (v : α)
    (h : l.length ≤ i) : l.set i v = l := by
  induction l generalizing i with
  | nil => rfl
  | cons x t ih =>
    cases i with
    | zero => exact absurd h (by simp)
    | succ n => simpa using ih n (by simpa using h)

lemma getD_default_of_le {α : Type} (l : List α) (i : ℕ) (d : α)
    (h : l.length ≤ i) : l.getD i d = d := List.getD_eq_default l d h

lemma setObjectives_stop_after (ks : List Kernel) (told : List ℕ) (vals : List Point) :
    (setObjectives ks told vals).map (fun k => k.stop_after_tell)
      = ks.map (fun k => k.stop_after_tell) := by
  rw [setObjectives]
  generalize told.zip vals = l
  induction l generalizing ks with
  | nil => rfl
  | cons p t ih =>
    rw [List.foldl_cons, ih, map_set]
    show (ks.map (fun k => k.stop_after_tell)).set p.1
        ((ks.getD p.1 default).stop_after_tell) = ks.map (fun k => k.stop_after_tell)
    have hgd := getD_map (fun k : Kernel => k.stop_after_tell) ks p.1 default
    rw [← hgd, set_getD_self]

lemma setObjectives_length (ks : List Kernel) (told : List ℕ) (vals : List Point) :
    (setObjectives ks told vals).length = ks.length := by
  have := congrArg List.length (setObjectives_stop_after ks told vals)
  simpa using this

lemma setObjectives_stop_after_mem (ks : List Kernel) (told : List ℕ)
    (vals : List Point) (h : ∀ k ∈ ks, k.stop_after_tell = []) :
    ∀ k ∈ setObjectives ks told vals, k.stop_after_tell = [] := by
  intro k hk
  have hmem : k.stop_after_tell
      ∈ (setObjectives ks told vals).map (fun k => k.stop_after_tell) :=
    List.mem_map_of_mem _ hk
  rw [setObjectives_stop_after] at hmem
  rcases List.mem_map.mp hmem with ⟨k0, hk0, he⟩
  rw [← he]
  exact h k0 hk0

/-- Under the no-termination hypothesis the loop body of `tell` only tells
the kernel and advances the offset. -/
lemma tellStep_no_stop (F : FrontOracle) (restart : Option Kernel)
    (ref : Option Point) (vals : List Point) (cons : List (List ℚ))
    (st : TellLoop) (ofr : ℕ × ℕ)
    (h1 : ((st.kernels.set ofr.1 (tellKernel (st.kernels.getD ofr.1 default))).getD
        ofr.1 default).stop_status = []) :
    tellStep F restart ref vals cons st ofr
      = { st with
            kernels := st.kernels.set ofr.1 (tellKernel (st.kernels.getD ofr.1 default)),
            tells := st.tells ++ [(ofr.1,
              (RankPenalizedFitness
                (((vals.drop st.start).take ofr.2).map (fun p =>
                  -(F.hvi (((List.range st.num_kernels.toNat).filter (fun i => i ≠ ofr.1)).map
                      (fun i => (st.kernels.getD i default).objective_values)) ref p)))
                (cons.map (fun c => (c.drop st.start).take ofr.2)) 0).1)],
            start := st.start + ofr.2 } := by
  rw [tellStep]
  split
  · rfl
  · next h2 => exact absurd h1 h2

/-- The invariant behind C1: as long as no asked kernel terminates, the
`tell` loop issues exactly the baseline fitness vectors described by
`baselineTells` for the snapshot of objective vectors taken after the
incumbent updates. -/
lemma tellLoop_tells_baseline (F : FrontOracle) (restart : Option Kernel)
    (ref : Option Point) (vals : List Point) (snapshot : List (Option Point)) :
    ∀ (ofs : List (ℕ × ℕ)) (st : TellLoop),
      st.kernels.map (fun k => k.objective_values) = snapshot →
      (∀ k ∈ st.kernels, k.stop_after_tell = []) →
      st.num_kernels = (st.kernels.length : ℤ) →
      (ofs.foldl (tellStep F restart ref vals []) st).tells
        = st.tells ++ baselineTells F.hvi snapshot ref vals st.start ofs := by
  intro ofs
  induction ofs with
  | nil =>
    intro st hsnap hns hnum
    simp [baselineTells]
  | cons o rest ih =>
    intro st hsnap hns hnum
    obtain ⟨ik, cnt⟩ := o
    have hsafe : ∀ k ∈ st.kernels, k.stop_after_tell = [] := hns
    have hk1 : ((st.kernels.set ik (tellKernel (st.kernels.getD ik default))).getD
        ik default).stop_status = [] := by
      by_cases hik : ik < st.kernels.length
      · rw [getD_set_lt _ _ _ _ (by simpa using hik)]
        have hmem : st.kernels.getD ik default ∈ st.kernels := by
          rw [List.getD_eq_getElem _ _ hik]
          exact List.getElem_mem _
        simpa [tellKernel] using hsafe _ hmem
      · rw [set_of_length_le _ _ _ (Nat.le_of_not_lt hik),
          getD_default_of_le _ _ _ (Nat.le_of_not_lt hik)]
        rfl
    rw [List.foldl_cons]
    have hstep := tellStep_no_stop F restart ref vals [] st (ik, cnt) hk1
    have hobj : (st.kernels.set ik (tellKernel (st.kernels.getD ik default))).map
        (fun k => k.objective_values) = snapshot := by
      rw [map_set]
      show (st.kernels.map (fun k => k.objective_values)).set ik
          ((st.kernels.getD ik default).objective_values)
        = snapshot
      rw [← getD_map_objective, set_getD_self, hsnap]
    have hns2 : ∀ k ∈ st.kernels.set ik (tellKernel (st.kernels.getD ik default)),
        k.stop_after_tell = [] := by
      intro k hk
      rcases List.mem_or_eq_of_mem_set hk with hk2 | rfl
      · exact hns _ hk2
      · by_cases hik : ik < st.kernels.length
        · have hmem : st.kernels.getD ik default ∈ st.kernels := by
            rw [List.getD_eq_getElem _ _ hik]
            exact List.getElem_mem _
          simpa [tellKernel] using hns _ hmem
        · rw [getD_default_of_le _ _ _ (Nat.le_of_not_lt hik)]
          rfl
    have hnum2 : st.num_kernels
        = ((st.kernels.set ik (tellKernel (st.kernels.getD ik default))).length : ℤ) := by
      rw [List.length_set]
      exact hnum
    have hobj2 : (tellStep F restart ref vals [] st (ik, cnt)).kernels.map
        (fun k => k.objective_values) = snapshot := by
      rw [hstep]
      exact hobj
    have hns3 : ∀ k ∈ (tellStep F restart ref vals [] st (ik, cnt)).kernels,
        k.stop_after_tell = [] := by
      rw [hstep]
      exact hns2
    have hnum3 : (tellStep F restart ref vals [] st (ik, cnt)).num_kernels
        = ((tellStep F restart ref vals [] st (ik, cnt)).kernels.length : ℤ) := by
      rw [hstep]
      exact hnum2
    rw [ih (tellStep F restart ref vals [] st (ik, cnt)) hobj2 hns3 hnum3, hstep,
      baselineTells]
    have hlen : st.num_kernels.toNat = snapshot.length := by
      rw [hnum, Int.toNat_natCast, ← hsnap, List.length_map]
    have hfront : ((List.range st.num_kernels.toNat).filter (fun i => i ≠ ik)).map
          (fun i => (st.kernels.getD i default).objective_values)
        = ((List.range snapshot.length).filter (fun i => i ≠ ik)).map
          (fun i => snapshot.getD i none) := by
      rw [hlen]
      refine List.map_congr_left ?_
      intro i _
      rw [← hsnap, getD_map_objective]
    simp only [hfront, List.map_nil, rpf_nil]
    simp

/-- C1: in a `tell` round with no constraint lists and in which no asked
kernel terminates, every asked kernel receives, for each of its offspring
objective vectors, exactly the negated hypervolume improvement of that
vector against the front built from the objective vectors of every other
kernel in the pool (after the told incumbents were updated), relative to
the current reference point. -/
theorem tell_baseline_fitness (F : FrontOracle) (restart : Option Kernel)
    (s : Sofomore) (numSolutions : ℕ) (vals : List Point)
    (hsol : numSolutions ≠ 0)
    (hnum : s.num_kernels = (s.kernels.length : ℤ))
    (hns : ∀ k ∈ s.kernels, k.stop_after_tell = []) :
    (Sofomore.tell F restart s numSolutions vals []).2.1
      = baselineTells F.hvi
          ((setObjectives s.kernels s.told_indices vals).map (fun k => k.objective_values))
          s.reference_point vals s.told_indices.length s.offspring := by
  rw [Sofomore.tell, if_neg hsol]
  have := tellLoop_tells_baseline F restart s.reference_point vals
    ((setObjectives s.kernels s.told_indices vals).map (fun k => k.objective_values))
    s.offspring
    ⟨setObjectives s.kernels s.told_indices vals, s.num_kernels, s.active_indices, [],
      s.told_indices.length, [], []⟩
    rfl
    (setObjectives_stop_after_mem _ _ _ hns)
    (by rw [setObjectives_length]; exact hnum)
  simpa using this

/-- Witness for C1 on the two-kernel state `sW`. -/
theorem tell_baseline_fitness_witness :
    (3 : ℕ) ≠ 0 ∧
    sW.num_kernels = (sW.kernels.length : ℤ) ∧
    (∀ k ∈ sW.kernels, k.stop_after_tell = []) ∧
    (Sofomore.tell F0 none sW 3 [[1, 1], [2, 2], [0, 3]] []).2.1
      = baselineTells F0.hvi
          ((setObjectives sW.kernels sW.told_indices [[1, 1], [2, 2], [0, 3]]).map
            (fun k => k.objective_values))
          sW.reference_point [[1, 1], [2, 2], [0, 3]] sW.told_indices.length sW.offspring :=
  ⟨by decide, by decide, by decide,
    tell_baseline_fitness F0 none sW 3 [[1, 1], [2, 2], [0, 3]] (by decide) (by decide)
      (by decide)⟩

/-! ## Removal and the front (C9) -/

lemma mem_of_mem_front (vals : List Point) (ref : Option Point) (v : Point)
    (h : v ∈ nonDominatedFront vals ref) : v ∈ vals := by
  rw [nonDominatedFront] at h
  exact List.mem_of_mem_filter (List.mem_of_mem_filter h)

/-- C9 counterexample: with two kernels sharing the objective vector
`[0, 0]`, removing one of them still leaves that vector on the recomputed
front (the `pareto_front.remove` call in the source acts on a temporary
object), so the removed kernel's objective vector is not absent from the
front, contradicting the claim as stated. -/
theorem remove_duplicate_vector_counterexample :
    kDupA ∈ sDup.kernels ∧
    kDupA.objective_values = some [0, 0] ∧
    (Sofomore.remove sDup [kDupA]).num_kernels = sDup.num_kernels - 1 ∧
    ([0, 0] : Point) ∈ Sofomore.pareto_front (Sofomore.remove sDup [kDupA]) := by
  refine ⟨by decide, rfl, by decide, ?_⟩
  decide

/-- C9 as amended: when no other kernel holds an equal objective vector
(the removed kernel's vector occurs exactly once in the pool), `remove(k)`
decrements the kernel count by exactly one, `k`'s objective vector is
absent from the recomputed front (hence from the preimage `pareto_set`),
and the active-index list is recomputed from the remaining kernels. -/
theorem remove_excises_unique_vector (s : Sofomore) (k : Kernel)
    (hmem : k ∈ s.kernels)
    (huniq : (s.kernels.filter
        (fun k2 => decide (k2.objective_values = k.objective_values))).length = 1) :
    (Sofomore.remove s [k]).num_kernels = s.num_kernels - 1 ∧
    (Sofomore.remove s [k]).kernels.length = s.kernels.length - 1 ∧
    (∀ v : Point, k.objective_values = some v →
      v ∉ Sofomore.pareto_front (Sofomore.remove s [k])) ∧
    (Sofomore.remove s [k]).active_indices
      = recomputeActive (s.kernels.erase k) (s.num_kernels - 1) := by
  have h2 : removeKernel s k
      = { s with kernels := s.kernels.erase k, num_kernels := s.num_kernels - 1 } := by
    rw [removeKernel, if_pos hmem]
  have h1 : Sofomore.remove s [k]
      = { s with
            kernels := s.kernels.erase k,
            num_kernels := s.num_kernels - 1,
            active_indices := recomputeActive (s.kernels.erase k) (s.num_kernels - 1) } := by
    rw [Sofomore.remove]
    simp only [List.foldl_cons, List.foldl_nil, h2]
  have hnone : ∀ k2 ∈ s.kernels.erase k, k2.objective_values ≠ k.objective_values := by
    have hperm : s.kernels.Perm (k :: s.kernels.erase k) := List.perm_cons_erase hmem
    have hfperm := hperm.filter
      (fun k2 => decide (k2.objective_values = k.objective_values))
    have hlen := hfperm.length_eq
    rw [huniq, List.filter_cons] at hlen
    have hcond : decide (k.objective_values = k.objective_values) = true := by simp
    rw [if_pos hcond, List.length_cons] at hlen
    have hempty : ((s.kernels.erase k).filter
        (fun k2 => decide (k2.objective_values = k.objective_values))) = [] :=
      List.length_eq_zero.mp (by omega)
    intro k2 hk2 he
    have : k2 ∈ ((s.kernels.erase k).filter
        (fun k2 => decide (k2.objective_values = k.objective_values))) :=
      List.mem_filter.mpr ⟨hk2, by simp [he]⟩
    rw [hempty] at this
    exact absurd this (List.not_mem_nil k2)
  refine ⟨by rw [h1], by rw [h1]; exact List.length_erase_of_mem hmem, ?_, by rw [h1]⟩
  intro v hv hcontra
  rw [h1] at hcontra
  have hmem2 : v ∈ (s.kernels.erase k).filterMap (fun k2 => k2.objective_values) :=
    mem_of_mem_front _ _ _ hcontra
  rcases List.mem_filterMap.mp hmem2 with ⟨k2, hk2, he⟩
  exact hnone k2 hk2 (by rw [he, hv])

/-- Witness for the amended C9: removing `kW0` from `sW`, whose vector
`[0, 0]` is held by no other kernel. -/
theorem remove_excises_unique_vector_witness :
    kW0 ∈ sW.kernels ∧
    (sW.kernels.filter
        (fun k2 => decide (k2.objective_values = kW0.objective_values))).length = 1 ∧
    ((Sofomore.remove sW [kW0]).num_kernels = sW.num_kernels - 1 ∧
    (Sofomore.remove sW [kW0]).kernels.length = sW.kernels.length - 1 ∧
    (∀ v : Point, kW0.objective_values = some v →
      v ∉ Sofomore.pareto_front (Sofomore.remove sW [kW0])) ∧
    (Sofomore.remove sW [kW0]).active_indices
      = recomputeActive (sW.kernels.erase kW0) (sW.num_kernels - 1)) :=
  ⟨by decide, by decide, remove_excises_unique_vector sW kW0 (by decide) (by decide)⟩

/-! ## The synthesized fitness of infeasible candidates (C4) -/

lemma floor_fifth : ⌊(1/5 : ℚ)⌋ = 0 := by
  rw [Int.floor_eq_iff]
  constructor <;> norm_num

lemma ceil_fifth : ⌈(1/5 : ℚ)⌉ = 1 := by
  rw [Int.ceil_eq_iff]
  constructor <;> norm_num

lemma floor_121 : ⌊(121/100 : ℚ)⌋ = 1 := by
  rw [Int.floor_eq_iff]
  constructor <;> norm_num

lemma ceil_121 : ⌈(121/100 : ℚ)⌉ = 2 := by
  rw [Int.ceil_eq_iff]
  constructor <;> norm_num

/-- The reader `_f_from_index` computes exactly the amended order statistic: below the
feasible count it reads the sorted value, beyond it it adds the integer
excess to the largest feasible value. -/
lemma fFromIndex_eq_orderStatAmended (fv : List ℚ) (fcb : ℚ) (k : ℕ) :
    fFromIndex fv fcb k = orderStatAmended fv fcb k := by
  rw [fFromIndex, orderStatAmended]
  by_cases h0 : fv.length = 0
  · rw [if_pos h0, if_pos h0]
  · rw [if_neg h0, if_neg h0]
    by_cases hk : k < fv.length
    · rw [if_pos hk]
      have hmin : min (fv.length - 1) k = k := min_eq_right (by omega)
      have hsub : (k - (fv.length - 1) : ℕ) = 0 := by omega
      rw [hmin, hsub]
      simp
    · rw [if_neg hk]
      have hmin : min (fv.length - 1) k = fv.length - 1 := min_eq_left (by omega)
      rw [hmin]

lemma penaltySum_eq_amended (gList : List (List ℚ)) (i : ℕ)
    (hlen : ∀ g ∈ gList, i < g.length) :
    penaltySum gList i = (gList.map (fun g => claimContribAmended g i)).sum := by
  rw [penaltySum]
  congr 1
  refine List.map_congr_left ?_
  intro g hg
  exact gRanks_getD_eq_contrib g i (hlen g hg)

lemma interpAt_eq_amended (fValues : List ℚ) (gList : List (List ℚ)) (fcb : ℚ)
    (i : ℕ) (hlen : ∀ g ∈ gList, i < g.length) :
    interpAt (sortedFeasValues fValues gList)
        ((sortedFeasValues fValues gList).headD fcb)
        (rpfIndex fValues.length gList i)
      = synthesizedValueAmended fValues gList fcb i := by
  rw [synthesizedValueAmended, interpAt, rpfIndex,
    penaltySum_eq_amended gList i hlen]
  simp only [fFromIndex_eq_orderStatAmended]

/-- C4 as amended: the per-constraint penalty contribution is the ascending
0-based stable rank minus the per-constraint feasible count plus one (a
value `≥ 1`) for candidates infeasible under that constraint and `0`
otherwise, and each globally infeasible candidate's output is the linear
interpolation between the `floor(j)`-th and `ceil(j)`-th order statistics of
the sorted feasible f-values at
`j = max(0.2 (num_feasible - 1) + 1.01 (sum of contributions - 1), 0)`,
with order statistics beyond the feasible count extrapolated by adding the
integer excess to the largest feasible value (anchored on the remembered
historical best-feasible value when no candidate is feasible). -/
theorem rpf_infeasible_amended (fValues : List ℚ) (gList : List (List ℚ))
    (fcb : ℚ) (hlen : ∀ g ∈ gList, g.length = fValues.length) :
    (∀ g ∈ gList, ∀ i < fValues.length,
      (gRanks g).getD i 0 = claimContribAmended g i ∧
      (0 < g.getD i 0 → 1 ≤ (gRanks g).getD i 0)) ∧
    (∀ i < fValues.length, isFeasible gList i = false →
      (RankPenalizedFitness fValues gList fcb).1.getD i 0
        = synthesizedValueAmended fValues gList fcb i) := by
  constructor
  · intro g hg i hi
    have hig : i < g.length := by rw [hlen g hg]; exact hi
    refine ⟨gRanks_getD_eq_contrib g i hig, ?_⟩
    intro hpos
    rw [gRanks_getD_eq_contrib g i hig, claimContribAmended, if_pos hpos]
    omega
  · intro i hi hinf
    rw [rpf_getD_infeasible fValues gList fcb i hi hinf]
    exact interpAt_eq_amended fValues gList fcb i
      (fun g hg => by rw [hlen g hg]; exact hi)

/-- Witness for the amended C4 at a concrete batch with one constraint. -/
theorem rpf_infeasible_amended_witness :
    (∀ g ∈ [[(-1 : ℚ), -1, 3]], g.length = ([1, 2, 5] : List ℚ).length) ∧
    ((∀ g ∈ [[(-1 : ℚ), -1, 3]], ∀ i < ([1, 2, 5] : List ℚ).length,
      (gRanks g).getD i 0 = claimContribAmended g i ∧
      (0 < g.getD i 0 → 1 ≤ (gRanks g).getD i 0)) ∧
    (∀ i < ([1, 2, 5] : List ℚ).length, isFeasible [[(-1 : ℚ), -1, 3]] i = false →
      (RankPenalizedFitness [1, 2, 5] [[(-1 : ℚ), -1, 3]] 0).1.getD i 0
        = synthesizedValueAmended [1, 2, 5] [[(-1 : ℚ), -1, 3]] 0 i)) :=
  ⟨by decide, rpf_infeasible_amended [1, 2, 5] [[(-1 : ℚ), -1, 3]] 0 (by decide)⟩

/-- C4 counterexample: at the batch `f = [1, 2, 5]` with the single
constraint values `[-1, -1, 3]`, candidate `2` is infeasible; the code
produces `6/5` (its 0-based rank `2` gives penalty sum `1`, so `j = 0.2`
interpolates between the two feasible values `1` and `2`), while the
claim's 1-based rank formula prescribes penalty sum `2`, `j = 1.21` and the
value `2`.  Hence the claimed per-candidate equation is false. -/
theorem rpf_claimed_value_counterexample :
    isFeasible [[(-1 : ℚ), -1, 3]] 2 = false ∧
    (RankPenalizedFitness [1, 2, 5] [[(-1 : ℚ), -1, 3]] 0).1.getD 2 0 = 6/5 ∧
    synthesizedValueClaimed [1, 2, 5] [[(-1 : ℚ), -1, 3]] 0 2 = 2 ∧
    (6/5 : ℚ) ≠ 2 := by
  have hsf : sortedFeasValues [1, 2, 5] [[(-1 : ℚ), -1, 3]] = [1, 2] := by decide
  have hfl : (feasIndices ([1, 2, 5] : List ℚ).length [[(-1 : ℚ), -1, 3]]).length = 2 := by
    decide
  have hps : penaltySum [[(-1 : ℚ), -1, 3]] 2 = 1 := by decide
  have hcc : (([[(-1 : ℚ), -1, 3]].map (fun g => claimContrib g 2)).sum) = 2 := by decide
  refine ⟨by decide, ?_, ?_, by norm_num⟩
  · rw [rpf_getD_infeasible [1, 2, 5] [[(-1 : ℚ), -1, 3]] 0 2 (by norm_num) (by decide)]
    have hj : rpfIndex ([1, 2, 5] : List ℚ).length [[(-1 : ℚ), -1, 3]] 2 = 1/5 := by
      rw [rpfIndex, hfl, hps]
      norm_num
    rw [hj, hsf]
    have hf : (⌊(1/5 : ℚ)⌋).toNat = 0 := by rw [floor_fifth]; rfl
    have hc : (⌈(1/5 : ℚ)⌉).toNat = 1 := by rw [ceil_fifth]; rfl
    rw [interpAt, hf, hc]
    norm_num [fFromIndex]
  · rw [synthesizedValueClaimed]
    simp only [hsf, hcc, hfl]
    have hj : max ((1/5 : ℚ) * (((2 : ℕ) : ℚ) - 1) + (101/100) * (((2 : ℕ) : ℚ) - 1)) 0
        = 121/100 := by
      norm_num
    rw [hj]
    have hf : (⌊(121/100 : ℚ)⌋).toNat = 1 := by rw [floor_121]; rfl
    have hc : (⌈(121/100 : ℚ)⌉).toNat = 2 := by rw [ceil_121]; rfl
    rw [hf, hc]
    norm_num [orderStatClaimed]

/-! ## Monotonicity of the penalty interpolation (C6) -/

lemma interpAt_eq_interpGen (fv : List ℚ) (fcb : ℚ) (j : ℚ) :
    interpAt fv fcb j = interpGen (fFromIndex fv fcb) j := rfl

lemma sorted_getD_mono (l : List ℚ) (h : l.Sorted (· ≤ ·)) (a b : ℕ)
    (hab : a ≤ b) (hb : b < l.length) : l.getD a 0 ≤ l.getD b 0 := by
  rcases eq_or_lt_of_le hab with rfl | hlt
  · exact le_refl _
  · have hgl := List.pairwise_iff_get.mp h ⟨a, lt_trans hlt hb⟩ ⟨b, hb⟩ hlt
    rw [List.getD_eq_getElem _ _ (lt_trans hlt hb), List.getD_eq_getElem _ _ hb]
    simpa using hgl

lemma fFromIndex_mono (fv : List ℚ) (fcb : ℚ) (h : fv.Sorted (· ≤ ·)) :
    Monotone (fFromIndex fv fcb) := by
  intro a b hab
  rw [fFromIndex, fFromIndex]
  by_cases h0 : fv.length = 0
  · rw [if_pos h0, if_pos h0]
    have hc : (a : ℚ) ≤ (b : ℚ) := by exact_mod_cast hab
    linarith
  · rw [if_neg h0, if_neg h0]
    have hlt : min (fv.length - 1) b < fv.length :=
      lt_of_le_of_lt (min_le_left _ _) (Nat.sub_lt (Nat.pos_of_ne_zero h0) one_pos)
    have h1 : fv.getD (min (fv.length - 1) a) 0 ≤ fv.getD (min (fv.length - 1) b) 0 :=
      sorted_getD_mono fv h _ _ (min_le_min (le_refl _) hab) hlt
    have h2 : ((a - (fv.length - 1) : ℕ) : ℚ) ≤ ((b - (fv.length - 1) : ℕ) : ℚ) := by
      exact_mod_cast Nat.sub_le_sub_right hab _
    linarith

lemma toNat_floor_cast (j : ℚ) (hj : 0 ≤ j) : (((⌊j⌋).toNat : ℕ) : ℚ) = (⌊j⌋ : ℚ) := by
  have h := Int.toNat_of_nonneg (Int.floor_nonneg.mpr hj)
  exact_mod_cast congrArg (fun z : ℤ => (z : ℚ)) h

lemma toNat_ceil_cast (j : ℚ) (hj : 0 ≤ j) : (((⌈j⌉).toNat : ℕ) : ℚ) = (⌈j⌉ : ℚ) := by
  have h := Int.toNat_of_nonneg (Int.ceil_nonneg hj)
  exact_mod_cast congrArg (fun z : ℤ => (z : ℚ)) h

lemma interpGen_ge_floor (G : ℕ → ℚ) (hG : Monotone G) (j : ℚ) (hj : 0 ≤ j) :
    G ((⌊j⌋).toNat) ≤ interpGen G j := by
  rw [interpGen]
  by_cases hsplit : (⌊j⌋).toNat < (⌈j⌉).toNat
  · rw [if_pos hsplit]
    have hw2 : 0 ≤ j - (((⌊j⌋).toNat : ℕ) : ℚ) := by
      rw [toNat_floor_cast j hj]
      linarith [Int.floor_le j]
    have hw1 : 0 ≤ (((⌈j⌉).toNat : ℕ) : ℚ) - j := by
      rw [toNat_ceil_cast j hj]
      linarith [Int.le_ceil j]
    have hfl0 : (0 : ℤ) ≤ ⌊j⌋ := Int.floor_nonneg.mpr hj
    have hcfl : ⌈j⌉ ≤ ⌊j⌋ + 1 := Int.ceil_le_floor_add_one j
    have hceq : (⌈j⌉).toNat = (⌊j⌋).toNat + 1 := by omega
    have hsum : (j - (((⌊j⌋).toNat : ℕ) : ℚ)) + ((((⌈j⌉).toNat : ℕ) : ℚ) - j) = 1 := by
      rw [hceq]
      push_cast
      ring
    have hGm : G ((⌊j⌋).toNat) ≤ G ((⌈j⌉).toNat) := hG (le_of_lt hsplit)
    have hexp : (j - (((⌊j⌋).toNat : ℕ) : ℚ)) * G ((⌊j⌋).toNat)
        + ((((⌈j⌉).toNat : ℕ) : ℚ) - j) * G ((⌊j⌋).toNat) = G ((⌊j⌋).toNat) := by
      linear_combination G ((⌊j⌋).toNat) * hsum
    linarith [mul_le_mul_of_nonneg_left hGm hw2, hexp]
  · rw [if_neg hsplit]

lemma interpGen_le_ceil (G : ℕ → ℚ) (hG : Monotone G) (j : ℚ) (hj : 0 ≤ j) :
    interpGen G j ≤ G ((⌈j⌉).toNat) := by
  rw [interpGen]
  by_cases hsplit : (⌊j⌋).toNat < (⌈j⌉).toNat
  · rw [if_pos hsplit]
    have hw2 : 0 ≤ j - (((⌊j⌋).toNat : ℕ) : ℚ) := by
      rw [toNat_floor_cast j hj]
      linarith [Int.floor_le j]
    have hw1 : 0 ≤ (((⌈j⌉).toNat : ℕ) : ℚ) - j := by
      rw [toNat_ceil_cast j hj]
      linarith [Int.le_ceil j]
    have hfl0 : (0 : ℤ) ≤ ⌊j⌋ := Int.floor_nonneg.mpr hj
    have hcfl : ⌈j⌉ ≤ ⌊j⌋ + 1 := Int.ceil_le_floor_add_one j
    have hceq : (⌈j⌉).toNat = (⌊j⌋).toNat + 1 := by omega
    have hsum : (j - (((⌊j⌋).toNat : ℕ) : ℚ)) + ((((⌈j⌉).toNat : ℕ) : ℚ) - j) = 1 := by
      rw [hceq]
      push_cast
      ring
    have hGm : G ((⌊j⌋).toNat) ≤ G ((⌈j⌉).toNat) := hG (le_of_lt hsplit)
    have hexp : (j - (((⌊j⌋).toNat : ℕ) : ℚ)) * G ((⌈j⌉).toNat)
        + ((((⌈j⌉).toNat : ℕ) : ℚ) - j) * G ((⌈j⌉).toNat) = G ((⌈j⌉).toNat) := by
      linear_combination G ((⌈j⌉).toNat) * hsum
    linarith [mul_le_mul_of_nonneg_left hGm hw1, hexp]
  · rw [if_neg hsplit]
    have hfc : ⌊j⌋ ≤ ⌈j⌉ := Int.floor_le_ceil j
    have hfl0 : (0 : ℤ) ≤ ⌊j⌋ := Int.floor_nonneg.mpr hj
    exact hG (by omega)

lemma interpGen_mono (G : ℕ → ℚ) (hG : Monotone G) (j j2 : ℚ) (hj : 0 ≤ j)
    (hjj : j ≤ j2) : interpGen G j ≤ interpGen G j2 := by
  have hj2 : 0 ≤ j2 := le_trans hj hjj
  by_cases hcase : (⌈j⌉).toNat ≤ (⌊j2⌋).toNat
  · calc interpGen G j ≤ G ((⌈j⌉).toNat) := interpGen_le_ceil G hG j hj
      _ ≤ G ((⌊j2⌋).toNat) := hG hcase
      _ ≤ interpGen G j2 := interpGen_ge_floor G hG j2 hj2
  · push_neg at hcase
    have hfl0 : (0 : ℤ) ≤ ⌊j⌋ := Int.floor_nonneg.mpr hj
    have hfl02 : (0 : ℤ) ≤ ⌊j2⌋ := Int.floor_nonneg.mpr hj2
    have hff : ⌊j⌋ ≤ ⌊j2⌋ := Int.floor_le_floor hjj
    have hfc : ⌊j⌋ ≤ ⌈j⌉ := Int.floor_le_ceil j
    have hcfl : ⌈j⌉ ≤ ⌊j⌋ + 1 := Int.ceil_le_floor_add_one j
    have hfeq : ⌊j2⌋ = ⌊j⌋ := by omega
    have hceq : ⌈j⌉ = ⌊j⌋ + 1 := by omega
    have hjni : (⌊j⌋ : ℚ) < j := by
      rcases lt_or_eq_of_le (Int.floor_le j) with h | h
      · exact h
      · exfalso
        have : ⌈j⌉ = ⌊j⌋ := by
          rw [← h]
          exact Int.ceil_intCast ⌊j⌋
        omega
    have hj2lt : j2 < (⌊j⌋ : ℚ) + 1 :=
      calc j2 < (⌊j2⌋ : ℚ) + 1 := Int.lt_floor_add_one j2
        _ = (⌊j⌋ : ℚ) + 1 := by rw [hfeq]
    have hj2ni : (⌊j2⌋ : ℚ) < j2 := by
      rw [hfeq]
      linarith
    have hceq2 : ⌈j2⌉ = ⌊j⌋ + 1 := by
      have hlow : ⌊j2⌋ < ⌈j2⌉ := by
        by_contra hcon
        push_neg at hcon
        have hle := Int.le_ceil j2
        have : (⌈j2⌉ : ℚ) ≤ (⌊j2⌋ : ℚ) := by exact_mod_cast hcon
        linarith
      have := Int.ceil_le_floor_add_one j2
      omega
    have hm2 : (⌈j⌉).toNat = (⌊j⌋).toNat + 1 := by omega
    have hm1 : (⌊j2⌋).toNat = (⌊j⌋).toNat := by omega
    have hm3 : (⌈j2⌉).toNat = (⌊j⌋).toNat + 1 := by omega
    rw [interpGen, interpGen, hm1, hm2, hm3, if_pos (Nat.lt_succ_self _),
      if_pos (Nat.lt_succ_self _)]
    have hkey : 0 ≤ (j2 - j) * (G ((⌊j⌋).toNat + 1) - G ((⌊j⌋).toNat)) :=
      mul_nonneg (by linarith) (by linarith [hG (Nat.le_succ ((⌊j⌋).toNat))])
    push_cast
    nlinarith [hkey]

/-! ## Effect of increasing one constraint violation (C6) -/

lemma rankAt_mono (v v2 : List ℚ) (i : ℕ) (hi : i < v.length)
    (hlen : v2.length = v.length)
    (hsame : ∀ k, k ≠ i → v2.getD k 0 = v.getD k 0)
    (hincr : v.getD i 0 ≤ v2.getD i 0) :
    rankAt v i ≤ rankAt v2 i := by
  rcases eq_or_lt_of_le hincr with heq | hlt
  · have hall : ∀ k, v2.getD k 0 = v.getD k 0 := by
      intro k
      by_cases hk : k = i
      · rw [hk, ← heq]
      · exact hsame k hk
    apply le_of_eq
    rw [rankAt_eq_cards, rankAt_eq_cards, hlen]
    congr 1
    · exact congrArg Finset.card (Finset.filter_congr (fun k _ => by rw [hall k, hall i]))
    · exact congrArg Finset.card (Finset.filter_congr (fun k _ => by rw [hall k, hall i]))
  · rw [rankAt_eq_cards, rankAt_eq_cards]
    have hsub : ((Finset.range v.length).filter (fun k => v.getD k 0 < v.getD i 0))
          ∪ ((Finset.range i).filter (fun k => v.getD k 0 = v.getD i 0))
        ⊆ (Finset.range v2.length).filter (fun k => v2.getD k 0 < v2.getD i 0) := by
      intro k hk
      rcases Finset.mem_union.mp hk with hk | hk
      · rcases Finset.mem_filter.mp hk with ⟨hk1, hk2⟩
        have hki : k ≠ i := by
          intro he
          rw [he] at hk2
          exact absurd hk2 (lt_irrefl _)
        refine Finset.mem_filter.mpr ⟨by rw [hlen]; exact hk1, ?_⟩
        rw [hsame k hki]
        exact lt_trans hk2 hlt
      · rcases Finset.mem_filter.mp hk with ⟨hk1, hk2⟩
        have hki : k < i := Finset.mem_range.mp hk1
        refine Finset.mem_filter.mpr
          ⟨by rw [hlen]; exact Finset.mem_range.mpr (lt_trans hki hi), ?_⟩
        rw [hsame k (Nat.ne_of_lt hki), hk2]
        exact hlt
    have hdisj : Disjoint
        ((Finset.range v.length).filter (fun k => v.getD k 0 < v.getD i 0))
        ((Finset.range i).filter (fun k => v.getD k 0 = v.getD i 0)) := by
      rw [Finset.disjoint_left]
      intro k hk1 hk2
      have h1 := (Finset.mem_filter.mp hk1).2
      have h2 := (Finset.mem_filter.mp hk2).2
      rw [h2] at h1
      exact absurd h1 (lt_irrefl _)
    calc ((Finset.range v.length).filter (fun k => v.getD k 0 < v.getD i 0)).card
          + ((Finset.range i).filter (fun k => v.getD k 0 = v.getD i 0)).card
        = (((Finset.range v.length).filter (fun k => v.getD k 0 < v.getD i 0))
            ∪ ((Finset.range i).filter (fun k => v.getD k 0 = v.getD i 0))).card :=
          (Finset.card_union_of_disjoint hdisj).symm
      _ ≤ ((Finset.range v2.length).filter (fun k => v2.getD k 0 < v2.getD i 0)).card :=
          Finset.card_le_card hsub
      _ ≤ ((Finset.range v2.length).filter (fun k => v2.getD k 0 < v2.getD i 0)).card
            + ((Finset.range i).filter (fun k => v2.getD k 0 = v2.getD i 0)).card :=
          Nat.le_add_right _ _

lemma nbFeas_congr (v v2 : List ℚ) (i : ℕ)
    (hlen : v2.length = v.length)
    (hsame : ∀ k, k ≠ i → v2.getD k 0 = v.getD k 0)
    (hpos : 0 < v.getD i 0) (hpos2 : 0 < v2.getD i 0) :
    nbFeas v2 = nbFeas v := by
  rw [nbFeas_eq_card, nbFeas_eq_card, hlen]
  refine congrArg Finset.card (Finset.filter_congr (fun k _ => ?_))
  by_cases hk : k = i
  · subst hk
    exact iff_of_false (not_le.mpr hpos2) (not_le.mpr hpos)
  · rw [hsame k hk]

lemma gRanks_getD_le_update (v v2 : List ℚ) (i : ℕ) (hi : i < v.length)
    (hlen : v2.length = v.length)
    (hsame : ∀ k, k ≠ i → v2.getD k 0 = v.getD k 0)
    (hpos : 0 < v.getD i 0)
    (hincr : v.getD i 0 ≤ v2.getD i 0) :
    (gRanks v).getD i 0 ≤ (gRanks v2).getD i 0 := by
  have hi2 : i < v2.length := by omega
  have hpos2 : 0 < v2.getD i 0 := lt_of_lt_of_le hpos hincr
  rw [gRanks_getD v i hi, gRanks_getD v2 i hi2]
  have hr : rankAt v i ≤ rankAt v2 i := rankAt_mono v v2 i hi hlen hsame hincr
  have hnb : nbFeas v2 = nbFeas v := nbFeas_congr v v2 i hlen hsame hpos hpos2
  have hg1 : nbFeas v ≤ rankAt v i := (nbFeas_le_rankAt_iff v i hi).mpr hpos
  have hg2 : nbFeas v2 ≤ rankAt v2 i := (nbFeas_le_rankAt_iff v2 i hi2).mpr hpos2
  rw [if_pos hg1, if_pos hg2, hnb]
  omega

lemma map_eq_map_range {β : Type} (l : List (List ℚ)) (f : List ℚ → β) :
    l.map f = (List.range l.length).map (fun d => f (l.getD d [])) := by
  induction l with
  | nil => rfl
  | cons x t ih =>
    have hfun : ((fun d => f (List.getD (x :: t) d [])) ∘ Nat.succ)
        = (fun d => f (t.getD d [])) := by
      funext d
      simp [List.getD]
    rw [List.length_cons, List.range_succ_eq_map, List.map_cons, List.map_cons,
      List.map_map, hfun]
    exact congrArg (f x :: ·) ih

lemma getD_mem_of_lt (gList : List (List ℚ)) (c : ℕ) (hc : c < gList.length) :
    gList.getD c [] ∈ gList := by
  rw [List.getD_eq_getElem _ _ hc]
  exact List.getElem_mem _

lemma isFeasible_congr_update (gList gList2 : List (List ℚ)) (c i : ℕ)
    (hc : c < gList.length) (hlen2 : gList2.length = gList.length)
    (hother : ∀ d, d ≠ c → gList2.getD d [] = gList.getD d [])
    (hsame : ∀ k, k ≠ i → (gList2.getD c []).getD k 0 = (gList.getD c []).getD k 0)
    (hpos : 0 < (gList.getD c []).getD i 0)
    (hincr : (gList.getD c []).getD i 0 ≤ (gList2.getD c []).getD i 0) :
    ∀ k, isFeasible gList2 k = isFeasible gList k := by
  intro k
  by_cases hk : k = i
  · subst hk
    rw [isFeasible_false_of_pos gList c k hc hpos,
      isFeasible_false_of_pos gList2 c k (by omega) (lt_of_lt_of_le hpos hincr)]
  · have hiff : (isFeasible gList2 k = true) ↔ (isFeasible gList k = true) := by
      rw [isFeasible_iff, isFeasible_iff, hlen2]
      constructor <;> intro h d hd
      · by_cases hdc : d = c
        · subst hdc
          rw [← hsame k hk]
          exact h d hd
        · rw [← hother d hdc]
          exact h d hd
      · by_cases hdc : d = c
        · subst hdc
          rw [hsame k hk]
          exact h d hd
        · rw [hother d hdc]
          exact h d hd
    cases h2 : isFeasible gList2 k <;> cases h1 : isFeasible gList k <;> simp_all

lemma penaltySum_le_update (fValues : List ℚ) (gList gList2 : List (List ℚ))
    (c i : ℕ) (hc : c < gList.length) (hlen2 : gList2.length = gList.length)
    (hglen : ∀ g ∈ gList, i < g.length)
    (hclen : (gList2.getD c []).length = (gList.getD c []).length)
    (hother : ∀ d, d ≠ c → gList2.getD d [] = gList.getD d [])
    (hsame : ∀ k, k ≠ i → (gList2.getD c []).getD k 0 = (gList.getD c []).getD k 0)
    (hpos : 0 < (gList.getD c []).getD i 0)
    (hincr : (gList.getD c []).getD i 0 ≤ (gList2.getD c []).getD i 0) :
    penaltySum gList i ≤ penaltySum gList2 i := by
  rw [penaltySum, penaltySum, map_eq_map_range, map_eq_map_range, hlen2]
  apply List.sum_le_sum
  intro d _
  by_cases hdc : d = c
  · subst hdc
    exact gRanks_getD_le_update (gList.getD d []) (gList2.getD d []) i
      (hglen _ (getD_mem_of_lt gList d hc)) hclen hsame hpos hincr
  · rw [hother d hdc]

/-- C6 as amended: increasing one infeasible candidate's violation of one
constraint, all other inputs held fixed, never decreases that candidate's
rank-penalized fitness; and an infeasible candidate's fitness is never
better (smaller) than the interpolated base-percentile point of the
feasible f-values (the interpolation at `j0 = 0.2 (num_feasible - 1)`,
clamped at zero) - rather than never better than the worst feasible value,
as originally claimed. -/
theorem rpf_monotonic_amended (fValues : List ℚ) (gList gList2 : List (List ℚ))
    (fcb : ℚ) (c i : ℕ)
    (hc : c < gList.length)
    (hlen2 : gList2.length = gList.length)
    (hglen : ∀ g ∈ gList, g.length = fValues.length)
    (hclen : (gList2.getD c []).length = (gList.getD c []).length)
    (hother : ∀ d, d ≠ c → gList2.getD d [] = gList.getD d [])
    (hsame : ∀ k, k ≠ i → (gList2.getD c []).getD k 0 = (gList.getD c []).getD k 0)
    (hpos : 0 < (gList.getD c []).getD i 0)
    (hincr : (gList.getD c []).getD i 0 ≤ (gList2.getD c []).getD i 0)
    (hi : i < fValues.length) :
    (RankPenalizedFitness fValues gList fcb).1.getD i 0
      ≤ (RankPenalizedFitness fValues gList2 fcb).1.getD i 0 ∧
    interpAt (sortedFeasValues fValues gList)
        ((sortedFeasValues fValues gList).headD fcb)
        (rpfBaseIndex fValues.length gList)
      ≤ (RankPenalizedFitness fValues gList fcb).1.getD i 0 := by
  have hpos2 : 0 < (gList2.getD c []).getD i 0 := lt_of_lt_of_le hpos hincr
  have hc2 : c < gList2.length := by omega
  have hinf1 : isFeasible gList i = false := isFeasible_false_of_pos gList c i hc hpos
  have hinf2 : isFeasible gList2 i = false :=
    isFeasible_false_of_pos gList2 c i hc2 hpos2
  have hfeq : ∀ k, isFeasible gList2 k = isFeasible gList k :=
    isFeasible_congr_update gList gList2 c i hc hlen2 hother hsame hpos hincr
  have hfieq : feasIndices fValues.length gList2 = feasIndices fValues.length gList := by
    rw [feasIndices, feasIndices]
    exact List.filter_congr (fun x _ => hfeq x)
  have hsfeq : sortedFeasValues fValues gList2 = sortedFeasValues fValues gList := by
    rw [sortedFeasValues, sortedFeasValues, hfieq]
  have hsorted : (sortedFeasValues fValues gList).Sorted (· ≤ ·) :=
    List.sorted_insertionSort _ _
  have hmono := fFromIndex_mono (sortedFeasValues fValues gList)
    ((sortedFeasValues fValues gList).headD fcb) hsorted
  have hglen2 : ∀ g ∈ gList, i < g.length := fun g hg => by
    rw [hglen g hg]
    exact hi
  have hsum_le : penaltySum gList i ≤ penaltySum gList2 i :=
    penaltySum_le_update fValues gList gList2 c i hc hlen2 hglen2 hclen hother hsame
      hpos hincr
  have hj_le : rpfIndex fValues.length gList i ≤ rpfIndex fValues.length gList2 i := by
    rw [rpfIndex, rpfIndex, hfieq]
    apply max_le_max ?_ (le_refl (0 : ℚ))
    have hqs : ((penaltySum gList i : ℕ) : ℚ) ≤ ((penaltySum gList2 i : ℕ) : ℚ) := by
      exact_mod_cast hsum_le
    have hmul := mul_le_mul_of_nonneg_left (sub_le_sub_right hqs 1)
      (by norm_num : (0 : ℚ) ≤ 101/100)
    linarith
  constructor
  · rw [rpf_getD_infeasible _ _ _ i hi hinf1, rpf_getD_infeasible _ _ _ i hi hinf2,
      hsfeq, interpAt_eq_interpGen, interpAt_eq_interpGen]
    exact interpGen_mono _ hmono _ _ (le_max_right _ 0) hj_le
  · rw [rpf_getD_infeasible _ _ _ i hi hinf1, interpAt_eq_interpGen,
      interpAt_eq_interpGen]
    have hbase0 : (0 : ℚ) ≤ rpfBaseIndex fValues.length gList := by
      rw [rpfBaseIndex]
      exact le_max_right _ 0
    refine interpGen_mono _ hmono _ _ hbase0 ?_
    rw [rpfBaseIndex, rpfIndex]
    have hs1 : 1 ≤ penaltySum gList i := by
      have hmemc : gList.getD c [] ∈ gList := getD_mem_of_lt gList c hc
      have hcontrib : 1 ≤ (gRanks (gList.getD c [])).getD i 0 := by
        rw [gRanks_getD _ i (hglen2 _ hmemc),
          if_pos ((nbFeas_le_rankAt_iff _ i (hglen2 _ hmemc)).mpr hpos)]
        omega
      have hmem2 : (gRanks (gList.getD c [])).getD i 0
          ∈ gList.map (fun g => (gRanks g).getD i 0) := List.mem_map_of_mem _ hmemc
      calc 1 ≤ (gRanks (gList.getD c [])).getD i 0 := hcontrib
        _ ≤ penaltySum gList i :=
            List.single_le_sum (fun _ _ => Nat.zero_le _) _ hmem2
    apply max_le_max ?_ (le_refl (0 : ℚ))
    have hq1 : (1 : ℚ) ≤ ((penaltySum gList i : ℕ) : ℚ) := by exact_mod_cast hs1
    have hb : (0 : ℚ) ≤ (101/100) * (((penaltySum gList i : ℕ) : ℚ) - 1) :=
      mul_nonneg (by norm_num) (by linarith)
    linarith

/-- Witness for the amended C6: raising candidate 2's constraint value from
`3` to `4` in the batch of the C4 analysis. -/
theorem rpf_monotonic_amended_witness :
    (0 : ℕ) < ([[(-1 : ℚ), -1, 3]] : List (List ℚ)).length ∧
    ((RankPenalizedFitness [1, 2, 5] [[(-1 : ℚ), -1, 3]] 0).1.getD 2 0
      ≤ (RankPenalizedFitness [1, 2, 5] [[(-1 : ℚ), -1, 4]] 0).1.getD 2 0 ∧
    interpAt (sortedFeasValues [1, 2, 5] [[(-1 : ℚ), -1, 3]])
        ((sortedFeasValues [1, 2, 5] [[(-1 : ℚ), -1, 3]]).headD 0)
        (rpfBaseIndex ([1, 2, 5] : List ℚ).length [[(-1 : ℚ), -1, 3]])
      ≤ (RankPenalizedFitness [1, 2, 5] [[(-1 : ℚ), -1, 3]] 0).1.getD 2 0) :=
  ⟨by decide,
    rpf_monotonic_amended [1, 2, 5] [[(-1 : ℚ), -1, 3]] [[(-1 : ℚ), -1, 4]] 0 0 2
      (by decide) (by decide) (by decide) (by decide)
      (by
        intro d hd
        match d with
        | 0 => exact absurd rfl hd
        | Nat.succ n => rfl)
      (by
        intro k hk
        match k with
        | 0 => rfl
        | 1 => rfl
        | 2 => exact absurd rfl hk
        | Nat.succ (Nat.succ (Nat.succ n)) => rfl)
      (by norm_num) (by norm_num) (by norm_num)⟩

/-- C6 counterexample: in the batch `f = [0, 10, 5]` with one constraint
`[-1, -1, 1]`, candidate 2 is infeasible at the minimum possible penalty
severity (penalty sum 1), and its synthesized value is `2`, strictly better
(smaller) than the worst feasible value `10`.  So an infeasible candidate's
value can be better than the worst feasible value, refuting the second part
of the claim. -/
theorem rpf_not_bounded_by_worst_feasible :
    isFeasible [[(-1 : ℚ), -1, 1]] 2 = false ∧
    penaltySum [[(-1 : ℚ), -1, 1]] 2 = 1 ∧
    (RankPenalizedFitness [0, 10, 5] [[(-1 : ℚ), -1, 1]] 0).1.getD 2 0 = 2 ∧
    (sortedFeasValues [0, 10, 5] [[(-1 : ℚ), -1, 1]]).getD 1 0 = 10 ∧
    (2 : ℚ) < 10 := by
  have hsf : sortedFeasValues [0, 10, 5] [[(-1 : ℚ), -1, 1]] = [0, 10] := by decide
  have hfl : (feasIndices ([0, 10, 5] : List ℚ).length [[(-1 : ℚ), -1, 1]]).length = 2 := by
    decide
  have hps : penaltySum [[(-1 : ℚ), -1, 1]] 2 = 1 := by decide
  refine ⟨by decide, hps, ?_, by rw [hsf]; rfl, by norm_num⟩
  rw [rpf_getD_infeasible [0, 10, 5] [[(-1 : ℚ), -1, 1]] 0 2 (by norm_num) (by decide)]
  have hj : rpfIndex ([0, 10, 5] : List ℚ).length [[(-1 : ℚ), -1, 1]] 2 = 1/5 := by
    rw [rpfIndex, hfl, hps]
    norm_num
  rw [hj, hsf]
  have hf : (⌊(1/5 : ℚ)⌋).toNat = 0 := by rw [floor_fifth]; rfl
  have hc : (⌈(1/5 : ℚ)⌉).toNat = 1 := by rw [ceil_fifth]; rfl
  rw [interpAt, hf, hc]
  norm_num [fFromIndex]

end Como
